import Mathlib

/-!
Shallow embedding of the puzzleengine state-space reachability engine
(`src/reachability.hpp`) together with its two clients
(`src/crossing.cpp`, `src/family.cpp`).

The embedding mirrors the C++ source:

* `trace_state` is the parent-linked trace node (`struct trace_state`);
  a `shared_ptr` parent that may be null is represented by the two
  constructors `root` (parent = nullptr) and `child`.
* `solver` (the cost-free solver, lines 114-187) is embedded as a step
  function `solverStep` on an explicit loop state `SolverState`, iterated
  with fuel.  The C++ local variables `passed`, `waiting`, `traces`,
  `containedSolution`, `result` become fields of `SolverState`.  Note that
  in the source `traces` and `containedSolution` are declared outside the
  while loop and are never cleared, and that the goal branch walks the
  `traceState` variable up to the root before the expansion code reuses
  that same variable as the parent of freshly pushed children; the
  embedding reproduces both behaviours faithfully.
* `costSolver` (lines 191-252) is embedded likewise.  Its
  `std::priority_queue<std::pair<CostT, std::shared_ptr<trace_state>>>`
  is a max-heap whose comparator lexicographically compares the cost with
  the caller's `operator<` and falls back to comparing the shared_ptr
  *addresses*.  The embedding keeps, for every pushed entry, the
  allocation index of its node, and takes an arbitrary address map
  `pi : Nat -> Nat` (allocation index to address) as a parameter; the
  comparator `pairLt` compares `pi`-images exactly where the C++
  comparator compares pointers.  Popping takes a maximal element of the
  queue contents, which for a strict weak cost order and distinct
  addresses is the unique maximum, i.e. exactly what the C++ heap pops.
* The `popped` field of both loop states is observation-only ("ghost"):
  it records the popped nodes in order and is read by no other field.
-/

set_option maxRecDepth 8192

/-- `enum class search_order` from reachability.hpp. -/
inductive search_order where
  | breadth_first
  | depth_first
deriving DecidableEq, Repr

/-- `struct trace_state`: a state together with a parent pointer that may be
null (`root`) or point at another node (`child`). -/
inductive trace_state (σ : Type) where
  | root (self : σ)
  | child (parent : trace_state σ) (self : σ)
deriving DecidableEq, Repr

namespace trace_state

/-- The `self` field of a node. -/
def self {σ : Type} : trace_state σ → σ
  | .root s => s
  | .child _ s => s

/-- The sequence of states collected by the goal-branch walk of the source
(`while (traceState->parent != nullptr) { traces.push_front(...); ... }`
followed by the final `push_front`): root state first, the node's own
state last. -/
def toList {σ : Type} : trace_state σ → List σ
  | .root s => [s]
  | .child p s => p.toList ++ [s]

/-- The node the `traceState` variable points at after the goal-branch walk
has run: the root ancestor of the popped node. -/
def rootOf {σ : Type} : trace_state σ → trace_state σ
  | .root s => .root s
  | .child p _ => rootOf p

/-- The state stored at the root ancestor. -/
def firstState {σ : Type} : trace_state σ → σ
  | .root s => s
  | .child p _ => firstState p

theorem self_mem_toList {σ : Type} (x : trace_state σ) : x.self ∈ x.toList := by
  cases x <;> simp [self, toList]

theorem toList_ne_nil {σ : Type} (x : trace_state σ) : x.toList ≠ [] := by
  cases x <;> simp [toList]

theorem rootOf_toList {σ : Type} (x : trace_state σ) :
    (rootOf x).toList = [x.firstState] := by
  induction x with
  | root s => simp [rootOf, firstState, toList]
  | child p s ih => simpa [rootOf, firstState] using ih

theorem firstState_mem_toList {σ : Type} (x : trace_state σ) :
    x.firstState ∈ x.toList := by
  induction x with
  | root s => simp [firstState, toList]
  | child p s ih => simp [firstState, toList]; exact Or.inl ih

end trace_state

/-- Removing the front element of the waiting list
(`waiting.front(); waiting.pop_front()`). -/
def popFront {α : Type} : List α → Option (α × List α)
  | [] => none
  | x :: xs => some (x, xs)

/-- Removing the back element of the waiting list
(`waiting.back(); waiting.pop_back()`). -/
def popBack {α : Type} (l : List α) : Option (α × List α) :=
  match l.reverse with
  | [] => none
  | x :: xs => some (x, xs.reverse)

/-- The pop dictated by the requested search order (requirement 4). -/
def popOrd {α : Type} (ord : search_order) (l : List α) : Option (α × List α) :=
  match ord with
  | .breadth_first => popFront l
  | .depth_first => popBack l

theorem popFront_eq_some {α : Type} {l rest : List α} {x : α}
    (h : popFront l = some (x, rest)) : l = x :: rest := by
  cases l with
  | nil => simp [popFront] at h
  | cons a as => simp [popFront] at h; simp [h.1, h.2]

theorem popBack_eq_some {α : Type} {l rest : List α} {x : α}
    (h : popBack l = some (x, rest)) : l = rest ++ [x] := by
  unfold popBack at h
  rcases hr : l.reverse with _ | ⟨a, as⟩
  · simp [hr] at h
  · simp [hr] at h
    have : l = (a :: as).reverse := by
      have := congrArg List.reverse hr
      simpa using this
    simp [this, h.1, h.2]

theorem popOrd_mem {α : Type} {ord : search_order} {l rest : List α} {x : α}
    (h : popOrd ord l = some (x, rest)) : x ∈ l ∧ ∀ y ∈ rest, y ∈ l := by
  cases ord with
  | breadth_first =>
      have := popFront_eq_some h
      subst this
      exact ⟨by simp, fun y hy => by simp [hy]⟩
  | depth_first =>
      have := popBack_eq_some h
      subst this; constructor
      · simp
      · intro y hy; simp [hy]

theorem popOrd_none {α : Type} {ord : search_order} {l : List α}
    (h : l = []) : popOrd ord l = none := by
  cases ord <;> simp [popOrd, popFront, popBack, h]

theorem popOrd_isSome {α : Type} {ord : search_order} {l : List α}
    (h : l ≠ []) : ∃ x rest, popOrd ord l = some (x, rest) := by
  cases ord with
  | breadth_first =>
      cases l with
      | nil => exact absurd rfl h
      | cons a as => exact ⟨a, as, rfl⟩
  | depth_first =>
      rcases hr : l.reverse with _ | ⟨a, as⟩
      · exact absurd (by simpa using congrArg List.reverse hr) h
      · exact ⟨a, as.reverse, by simp [popOrd, popBack, hr]⟩

/-- The configuration stored by the no-cost `state_space_t` constructor:
initial state, transition generator and invariant predicate.  A C++
transition mutates a copy of the state, so it is embedded as `σ → σ`;
the generic container is embedded as `List`. -/
structure Config (σ : Type) where
  initialState : σ
  transitionFunction : σ → List (σ → σ)
  invariantFunction : σ → Bool

/-- The local variables of `solver` (lines 118-127), plus the ghost field
`popped` recording popped nodes in order. -/
structure SolverState (σ : Type) where
  waiting : List (trace_state σ)
  passed : List σ
  traces : List σ
  containedSolution : List σ
  result : List (List σ)
  popped : List (trace_state σ)
deriving DecidableEq, Repr

/-- The loop state right after line 131: the root node wrapping the initial
state has been pushed (with no invariant check), everything else is empty. -/
def solverInit {σ : Type} (cfg : Config σ) : SolverState σ :=
  { waiting := [.root cfg.initialState]
    passed := []
    traces := []
    containedSolution := []
    result := []
    popped := [] }

/-- The children pushed by the expansion loop (lines 175-183): one node per
generated transition whose successor passes the invariant, in generation
order, all parented at `tr2` (the current value of the `traceState`
variable). -/
def childList {σ : Type} (cfg : Config σ) (tr2 : trace_state σ) (cur : σ) :
    List (trace_state σ) :=
  (cfg.transitionFunction cur).filterMap fun t =>
    let succ := t cur
    if cfg.invariantFunction succ then some (.child tr2 succ) else none

/-- The goal branch (lines 149-167): prepend the walked trace to the
never-cleared `traces`, append all of `traces` to the never-cleared
`containedSolution`, and push that onto `result`. -/
def goalUpdate {σ : Type} (goal : σ → Bool) (node : trace_state σ)
    (st : SolverState σ) : SolverState σ :=
  if goal node.self then
    let traces2 := node.toList ++ st.traces
    let contained2 := st.containedSolution ++ traces2
    { st with traces := traces2, containedSolution := contained2,
              result := st.result ++ [contained2] }
  else st

/-- The visited check and expansion (lines 171-184). -/
def expandInto {σ : Type} [DecidableEq σ] (cfg : Config σ)
    (tr2 : trace_state σ) (cur : σ) (st : SolverState σ) : SolverState σ :=
  if cur ∈ st.passed then st
  else { st with passed := st.passed ++ [cur],
                 waiting := st.waiting ++ childList cfg tr2 cur }

/-- One full iteration of the while loop of `solver` on an already popped
node.  After the goal branch the `traceState` variable has been walked to
the root, so the children of a goal node are parented at the root of its
chain rather than at the node itself, exactly as in the source. -/
def afterPop {σ : Type} [DecidableEq σ] (cfg : Config σ) (goal : σ → Bool)
    (node : trace_state σ) (rest : List (trace_state σ)) (st : SolverState σ) :
    SolverState σ :=
  let st1 := goalUpdate goal node st
  let tr2 := if goal node.self then trace_state.rootOf node else node
  expandInto cfg tr2 node.self
    { st1 with waiting := rest, popped := st1.popped ++ [node] }

/-- One iteration of the while loop of `solver` (lines 134-185); the
identity when the waiting list is empty (the loop has exited). -/
def solverStep {σ : Type} [DecidableEq σ] (cfg : Config σ) (goal : σ → Bool)
    (ord : search_order) (st : SolverState σ) : SolverState σ :=
  match popOrd ord st.waiting with
  | none => st
  | some (node, rest) => afterPop cfg goal node rest st

/-- The loop state after `n` iterations of `solver`'s while loop. -/
def solverStepN {σ : Type} [DecidableEq σ] (cfg : Config σ) (goal : σ → Bool)
    (ord : search_order) : Nat → SolverState σ
  | 0 => solverInit cfg
  | n + 1 => solverStep cfg goal ord (solverStepN cfg goal ord n)

/-- `check` in no-cost mode (`_useCost == false`): run `solver`; `some`
result when the loop has emptied the waiting list within `fuel`
iterations, `none` when the state space was not exhausted yet. -/
def state_space_check {σ : Type} [DecidableEq σ] (cfg : Config σ)
    (goal : σ → Bool) (ord : search_order) (fuel : Nat) :
    Option (List (List σ)) :=
  let st := solverStepN cfg goal ord fuel
  if st.waiting.isEmpty then some st.result else none

/-- The configuration stored by the cost-enabled `state_space_t`
constructor.  `lt` is the caller-supplied `operator<` on `CostT` (the
strict weak ordering the default `std::less` comparator of the priority
queue consults). -/
structure CostConfig (σ κ : Type) where
  initialState : σ
  initialCost : κ
  transitionFunction : σ → List (σ → σ)
  invariantFunction : σ → Bool
  costFunction : σ → κ → κ
  lt : κ → κ → Bool

/-- The comparator of
`std::priority_queue<std::pair<CostT, std::shared_ptr<trace_state>>>`:
`std::less` on the pair, i.e. the caller's `operator<` on the cost, then
(when the costs are `<`-incomparable) `operator<` on the shared_ptr,
which compares the pointer *addresses*.  An entry carries the allocation
index of its node; `pi` maps allocation indices to addresses. -/
def pairLt {σ κ : Type} (lt : κ → κ → Bool) (pi : Nat → Nat)
    (a b : κ × trace_state σ × Nat) : Bool :=
  lt a.1 b.1 || (!lt b.1 a.1 && decide (pi a.2.2 < pi b.2.2))

/-- Greatest element of a list under a comparator (`cmp x y` = "x before
y" / "x less than y"): what `waiting.top()` returns for a heap whose
contents are `l`.  For the strict total order obtained from a strict
weak cost order plus distinct addresses the maximum is unique, so this
is exactly the element the C++ heap pops. -/
def pqMaxAux {α : Type} (cmp : α → α → Bool) : α → List α → α
  | m, [] => m
  | m, y :: ys => pqMaxAux cmp (if cmp m y then y else m) ys

/-- `waiting.top()`: `none` on an empty queue. -/
def pqMax {α : Type} (cmp : α → α → Bool) : List α → Option α
  | [] => none
  | x :: xs => some (pqMaxAux cmp x xs)

/-- The pop of `costSolver` (lines 209-212): the top of the priority
queue built over the waiting entries. -/
def costPop {σ κ : Type} (cfg : CostConfig σ κ) (pi : Nat → Nat)
    (waiting : List (κ × trace_state σ × Nat)) :
    Option (κ × trace_state σ × Nat) :=
  pqMax (pairLt cfg.lt pi) waiting

/-- The local variables of `costSolver` (lines 195-202) plus the
allocation counter `nextIdx` (the number of `make_shared` calls so far,
used to give each pushed node its address index) and the ghost field
`popped` recording the popped (cost, node) pairs in order. -/
structure CostSolverState (σ κ : Type) where
  waiting : List (κ × trace_state σ × Nat)
  nextIdx : Nat
  passed : List σ
  solution : List σ
  containedSolution : List σ
  result : List (List σ)
  popped : List (κ × trace_state σ)
deriving DecidableEq, Repr

/-- The loop state right after line 205: the pair of the initial cost and
the root node (allocation index 0) has been pushed, with no invariant
check. -/
def costInit {σ κ : Type} (cfg : CostConfig σ κ) : CostSolverState σ κ :=
  { waiting := [(cfg.initialCost, .root cfg.initialState, 0)]
    nextIdx := 1
    passed := []
    solution := []
    containedSolution := []
    result := []
    popped := [] }

/-- The entries pushed by the expansion loop of `costSolver` (lines
238-247): for each generated transition whose successor passes the
invariant, the pair of `costFunction successor currentCost` and a fresh
child node, with consecutive allocation indices starting at `i`.
Returns the new entries and the next free allocation index. -/
def genChildren {σ κ : Type} (cfg : CostConfig σ κ) (parent : trace_state σ)
    (cur : σ) (curCost : κ) : Nat → List (σ → σ) →
    List (κ × trace_state σ × Nat) × Nat
  | i, [] => ([], i)
  | i, t :: ts =>
    let succ := t cur
    if cfg.invariantFunction succ then
      let rest := genChildren cfg parent cur curCost (i + 1) ts
      ((cfg.costFunction succ curCost, .child parent succ, i) :: rest.1, rest.2)
    else genChildren cfg parent cur curCost i ts

/-- The goal branch of `costSolver` (lines 214-231): like the cost-free
one, with `solution` in place of `traces`; `solution` and
`containedSolution` are again never cleared between goal discoveries. -/
def costGoalUpdate {σ κ : Type} (goal : σ → Bool) (node : trace_state σ)
    (st : CostSolverState σ κ) : CostSolverState σ κ :=
  if goal node.self then
    let solution2 := node.toList ++ st.solution
    let contained2 := st.containedSolution ++ solution2
    { st with solution := solution2, containedSolution := contained2,
              result := st.result ++ [contained2] }
  else st

/-- One full iteration of the while loop of `costSolver` on an already
popped entry `top`: goal branch first (walking the `traceState` variable
to the root when the goal fires, as in the source), then the visited
check and expansion pushing children parented at the current value of
`traceState`. -/
def costAfterPop {σ κ : Type} [DecidableEq σ] [DecidableEq κ]
    (cfg : CostConfig σ κ) (goal : σ → Bool)
    (top : κ × trace_state σ × Nat) (st : CostSolverState σ κ) :
    CostSolverState σ κ :=
  let node := top.2.1
  let cur := node.self
  let curCost := top.1
  let st1 := costGoalUpdate goal node st
  let tr2 := if goal cur then trace_state.rootOf node else node
  let st2 := { st1 with waiting := st1.waiting.erase top,
                        popped := st1.popped ++ [(top.1, node)] }
  if cur ∈ st2.passed then st2
  else
    let gen := genChildren cfg tr2 cur curCost st2.nextIdx
                 (cfg.transitionFunction cur)
    { st2 with passed := st2.passed ++ [cur],
               waiting := st2.waiting ++ gen.1,
               nextIdx := gen.2 }

/-- One iteration of the while loop of `costSolver` (lines 207-249); the
identity when the queue is empty. -/
def costStep {σ κ : Type} [DecidableEq σ] [DecidableEq κ]
    (cfg : CostConfig σ κ) (goal : σ → Bool) (pi : Nat → Nat)
    (st : CostSolverState σ κ) : CostSolverState σ κ :=
  match costPop cfg pi st.waiting with
  | none => st
  | some top => costAfterPop cfg goal top st

/-- The loop state after `n` iterations of `costSolver`'s while loop. -/
def costStepN {σ κ : Type} [DecidableEq σ] [DecidableEq κ]
    (cfg : CostConfig σ κ) (goal : σ → Bool) (pi : Nat → Nat) :
    Nat → CostSolverState σ κ
  | 0 => costInit cfg
  | n + 1 => costStep cfg goal pi (costStepN cfg goal pi n)

/-- `check` in cost mode (`_useCost == true`): run `costSolver`. -/
def state_space_checkCost {σ κ : Type} [DecidableEq σ] [DecidableEq κ]
    (cfg : CostConfig σ κ) (goal : σ → Bool) (pi : Nat → Nat) (fuel : Nat) :
    Option (List (List σ)) :=
  let st := costStepN cfg goal pi fuel
  if st.waiting.isEmpty then some st.result else none

theorem bool_eq_false {a : Bool} (h : ¬ a = true) : a = false := by
  cases a
  · rfl
  · exact absurd rfl h

theorem bool_absurd {a : Bool} {C : Prop} (h1 : a = true) (h2 : a = false) : C :=
  absurd h1 (by simp [h2])

/-- A strict weak ordering given as a boolean relation: asymmetric and
negatively transitive.  This is what C++ requires of the `operator<`
consulted by `std::priority_queue`'s default comparator. -/
def IsSWOb {κ : Type} (lt : κ → κ → Bool) : Prop :=
  (∀ a b, lt a b = true → lt b a = false) ∧
  (∀ a b c, lt a b = false → lt b c = false → lt a c = false)

theorem IsSWOb.lt_trans {κ : Type} {lt : κ → κ → Bool} (h : IsSWOb lt)
    {a b c : κ} (hab : lt a b = true) (hbc : lt b c = true) :
    lt a c = true := by
  by_contra hac
  have hac' : lt a c = false := bool_eq_false hac
  have hcb : lt c b = false := h.1 b c hbc
  have := h.2 a c b hac' hcb
  rw [this] at hab
  exact Bool.false_ne_true hab

theorem pairLt_asymm {σ κ : Type} {lt : κ → κ → Bool} (h : IsSWOb lt)
    (pi : Nat → Nat) (a b : κ × trace_state σ × Nat)
    (hab : pairLt lt pi a b = true) : pairLt lt pi b a = false := by
  unfold pairLt at *
  simp only [Bool.or_eq_true] at hab
  rcases hab with h1 | h2
  · have := h.1 _ _ h1
    simp [this, h1]
  · simp only [Bool.and_eq_true, Bool.not_eq_true', decide_eq_true_eq] at h2
    have hnlt : ¬ pi b.2.2 < pi a.2.2 := Nat.lt_asymm h2.2
    simp [h2.1, hnlt]

theorem pairLt_trans {σ κ : Type} {lt : κ → κ → Bool} (h : IsSWOb lt)
    (pi : Nat → Nat) (a b c : κ × trace_state σ × Nat)
    (hab : pairLt lt pi a b = true) (hbc : pairLt lt pi b c = true) :
    pairLt lt pi a c = true := by
  unfold pairLt at *
  simp only [Bool.or_eq_true] at hab hbc
  rcases hab with h1 | h2 <;> rcases hbc with g1 | g2
  · simp [h.lt_trans h1 g1]
  · simp only [Bool.and_eq_true, Bool.not_eq_true', decide_eq_true_eq] at g2
    have hac : lt a.1 c.1 = true := by
      by_contra hx
      have := h.2 a.1 c.1 b.1 (bool_eq_false hx) g2.1
      exact bool_absurd h1 this
    simp [hac]
  · simp only [Bool.and_eq_true, Bool.not_eq_true', decide_eq_true_eq] at h2
    have hac : lt a.1 c.1 = true := by
      by_contra hx
      have := h.2 b.1 a.1 c.1 h2.1 (bool_eq_false hx)
      exact bool_absurd g1 this
    simp [hac]
  · simp only [Bool.and_eq_true, Bool.not_eq_true', decide_eq_true_eq] at h2 g2
    have hca : lt c.1 a.1 = false := h.2 c.1 b.1 a.1 g2.1 h2.1
    have hiac : pi a.2.2 < pi c.2.2 := Nat.lt_trans h2.2 g2.2
    simp [hca, hiac]

theorem pqMaxAux_mem {α : Type} (cmp : α → α → Bool) (m : α) (l : List α) :
    pqMaxAux cmp m l = m ∨ pqMaxAux cmp m l ∈ l := by
  induction l generalizing m with
  | nil => exact Or.inl rfl
  | cons y ys ih =>
    simp only [pqMaxAux]
    by_cases h : cmp m y = true
    · rw [if_pos h]
      rcases ih y with h1 | h1
      · exact Or.inr (by simp [h1])
      · exact Or.inr (by simp [h1])
    · rw [if_neg h]
      rcases ih m with h1 | h1
      · exact Or.inl h1
      · exact Or.inr (by simp [h1])

theorem pqMax_mem {α : Type} {cmp : α → α → Bool} {l : List α} {x : α}
    (h : pqMax cmp l = some x) : x ∈ l := by
  cases l with
  | nil => simp [pqMax] at h
  | cons a as =>
    simp only [pqMax, Option.some_inj] at h
    rcases pqMaxAux_mem cmp a as with h1 | h1
    · rw [← h, h1]; simp
    · rw [← h]; simp [h1]

theorem pqMaxAux_not_lt {α : Type} {cmp : α → α → Bool}
    (hasym : ∀ a b, cmp a b = true → cmp b a = false)
    (htrans : ∀ a b c, cmp a b = true → cmp b c = true → cmp a c = true)
    (m : α) (l : List α) :
    (pqMaxAux cmp m l = m ∨ cmp m (pqMaxAux cmp m l) = true) ∧
    ∀ z ∈ m :: l, cmp (pqMaxAux cmp m l) z = false := by
  induction l generalizing m with
  | nil =>
    refine ⟨Or.inl rfl, ?_⟩
    intro z hz
    simp only [List.mem_singleton] at hz
    subst hz
    show cmp z z = false
    cases hx : cmp z z with
    | false => rfl
    | true => exact bool_absurd hx (hasym _ _ hx)
  | cons y ys ih =>
    simp only [pqMaxAux]
    by_cases h : cmp m y = true
    · rw [if_pos h]
      obtain ⟨ih1, ih2⟩ := ih y
      have hchain : cmp m (pqMaxAux cmp y ys) = true := by
        rcases ih1 with h1 | h1
        · rw [h1]; exact h
        · exact htrans _ _ _ h h1
      refine ⟨Or.inr hchain, ?_⟩
      intro z hz
      rcases List.mem_cons.mp hz with rfl | hz'
      · by_contra hx
        have hx' : cmp (pqMaxAux cmp y ys) z = true := by
          cases hw : cmp (pqMaxAux cmp y ys) z with
          | false => exact absurd hw hx
          | true => rfl
        have hy2 : cmp (pqMaxAux cmp y ys) y = true := htrans _ _ _ hx' h
        have h2 := ih2 y (by simp)
        rw [h2] at hy2
        exact Bool.false_ne_true hy2
      · exact ih2 z hz'
    · rw [if_neg h]
      have h' : cmp m y = false := bool_eq_false h
      obtain ⟨ih1, ih2⟩ := ih m
      refine ⟨ih1, ?_⟩
      intro z hz
      rcases List.mem_cons.mp hz with rfl | hz'
      · exact ih2 z (by simp)
      · rcases List.mem_cons.mp hz' with rfl | hz''
        · rcases ih1 with h1 | h1
          · rw [h1]; exact h'
          · by_contra hx
            have hx' : cmp (pqMaxAux cmp m ys) z = true := by
              cases hw : cmp (pqMaxAux cmp m ys) z with
              | false => exact absurd hw hx
              | true => rfl
            exact bool_absurd (htrans _ _ _ h1 hx') h'
        · exact ih2 z (by simp [hz''])

/-- The popped entry of the cost solver is a maximal element of the queue
contents under the heap comparator. -/
theorem costPop_maximal {σ κ : Type} {cfg : CostConfig σ κ} {pi : Nat → Nat}
    {waiting : List (κ × trace_state σ × Nat)} {top : κ × trace_state σ × Nat}
    (hswo : IsSWOb cfg.lt) (h : costPop cfg pi waiting = some top) :
    ∀ x ∈ waiting, pairLt cfg.lt pi top x = false := by
  cases waiting with
  | nil => simp [costPop, pqMax] at h
  | cons a as =>
    have h' : pqMaxAux (pairLt cfg.lt pi) a as = top := by
      simpa [costPop, pqMax] using h
    have hmx := pqMaxAux_not_lt
      (fun x y => pairLt_asymm hswo pi x y)
      (fun x y z => pairLt_trans hswo pi x y z) a as
    intro x hx
    rw [← h']
    exact hmx.2 x hx

/-- The pop of the cost solver takes an element of the waiting queue. -/
theorem costPop_mem {σ κ : Type} {cfg : CostConfig σ κ} {pi : Nat → Nat}
    {waiting : List (κ × trace_state σ × Nat)} {top : κ × trace_state σ × Nat}
    (h : costPop cfg pi waiting = some top) : top ∈ waiting :=
  pqMax_mem h

theorem costPop_none {σ κ : Type} (cfg : CostConfig σ κ) (pi : Nat → Nat) :
    costPop (σ := σ) cfg pi [] = none := rfl

theorem costPop_isSome {σ κ : Type} (cfg : CostConfig σ κ) (pi : Nat → Nat)
    (a : κ × trace_state σ × Nat) (l : List (κ × trace_state σ × Nat)) :
    ∃ top, costPop cfg pi (a :: l) = some top := ⟨_, rfl⟩

/-- Explicit form of one solver iteration on a successful pop. -/
theorem solverStep_eq {σ : Type} [DecidableEq σ] (cfg : Config σ)
    (goal : σ → Bool) (ord : search_order) (st : SolverState σ)
    (node : trace_state σ) (rest : List (trace_state σ))
    (hp : popOrd ord st.waiting = some (node, rest)) :
    solverStep cfg goal ord st =
      { waiting :=
          if node.self ∈ st.passed then rest
          else rest ++ childList cfg
            (if goal node.self then trace_state.rootOf node else node)
            node.self
        passed :=
          if node.self ∈ st.passed then st.passed else st.passed ++ [node.self]
        traces := if goal node.self then node.toList ++ st.traces else st.traces
        containedSolution :=
          if goal node.self
          then st.containedSolution ++ (node.toList ++ st.traces)
          else st.containedSolution
        result :=
          if goal node.self
          then st.result ++ [st.containedSolution ++ (node.toList ++ st.traces)]
          else st.result
        popped := st.popped ++ [node] } := by
  unfold solverStep
  rw [hp]
  unfold afterPop goalUpdate expandInto
  by_cases hg : goal node.self = true
  · by_cases hm : node.self ∈ st.passed
    · simp [hg, hm]
    · simp [hg, hm]
  · by_cases hm : node.self ∈ st.passed
    · simp [hg, hm]
    · simp [hg, hm]

/-- Members of `childList` are invariant-passing generated successors. -/
theorem childList_mem {σ : Type} {cfg : Config σ} {tr2 : trace_state σ}
    {cur : σ} {x : trace_state σ} (h : x ∈ childList cfg tr2 cur) :
    ∃ t ∈ cfg.transitionFunction cur,
      cfg.invariantFunction (t cur) = true ∧ x = .child tr2 (t cur) := by
  unfold childList at h
  rw [List.mem_filterMap] at h
  obtain ⟨t, ht, hx⟩ := h
  by_cases hi : cfg.invariantFunction (t cur) = true
  · refine ⟨t, ht, hi, ?_⟩
    rw [if_pos hi] at hx
    exact (Option.some_inj.mp hx).symm
  · rw [if_neg hi] at hx
    exact absurd hx (by simp)

/-- Hypotheses on a per-state predicate `Q`: it holds at the initial state
and is preserved along every generated, invariant-passing transition. -/
def QClosed {σ : Type} (cfg : Config σ) (Q : σ → Prop) : Prop :=
  Q cfg.initialState ∧
  ∀ s t, Q s → t ∈ cfg.transitionFunction s →
    cfg.invariantFunction (t s) = true → Q (t s)

/-- `Q` holds at every state recorded anywhere in the solver loop state:
in the trace chain of every waiting and every popped node, in `passed`,
in the accumulating `traces` and `containedSolution` buffers, and in
every path of the result list. -/
def SolverQInv {σ : Type} (Q : σ → Prop) (st : SolverState σ) : Prop :=
  (∀ x ∈ st.waiting, ∀ s ∈ x.toList, Q s) ∧
  (∀ x ∈ st.popped, ∀ s ∈ x.toList, Q s) ∧
  (∀ s ∈ st.passed, Q s) ∧
  (∀ s ∈ st.traces, Q s) ∧
  (∀ s ∈ st.containedSolution, Q s) ∧
  (∀ l ∈ st.result, ∀ s ∈ l, Q s)

theorem solverInit_QInv {σ : Type} {cfg : Config σ} {Q : σ → Prop}
    (hQ : QClosed cfg Q) : SolverQInv Q (solverInit cfg) := by
  refine ⟨?_, ?_, ?_, ?_, ?_, ?_⟩ <;>
    simp [solverInit, trace_state.toList, hQ.1]

theorem solverStep_QInv {σ : Type} [DecidableEq σ] {cfg : Config σ}
    {Q : σ → Prop} {goal : σ → Bool} {ord : search_order} {st : SolverState σ}
    (hQ : QClosed cfg Q) (h : SolverQInv Q st) :
    SolverQInv Q (solverStep cfg goal ord st) := by
  cases hp : popOrd ord st.waiting with
  | none => unfold solverStep; rw [hp]; exact h
  | some pr =>
    obtain ⟨node, rest⟩ := pr
    obtain ⟨hmem, hrest⟩ := popOrd_mem hp
    obtain ⟨hw, hpop, hpass, htr, hcs, hres⟩ := h
    have hnode : ∀ s ∈ node.toList, Q s := hw node hmem
    rw [solverStep_eq cfg goal ord st node rest hp]
    unfold SolverQInv
    dsimp only
    have hself : Q node.self := hnode _ (trace_state.self_mem_toList node)
    have htr2 : ∀ s ∈ (if goal node.self then trace_state.rootOf node
        else node).toList, Q s := by
      by_cases hg : goal node.self = true
      · rw [if_pos hg, trace_state.rootOf_toList]
        intro s hs
        simp only [List.mem_singleton] at hs
        subst hs
        exact hnode _ (trace_state.firstState_mem_toList node)
      · rw [if_neg hg]
        exact hnode
    have hchild : ∀ x ∈ childList cfg
        (if goal node.self then trace_state.rootOf node else node) node.self,
        ∀ s ∈ x.toList, Q s := by
      intro x hx
      obtain ⟨t, ht, hi, rfl⟩ := childList_mem hx
      intro s hs
      simp only [trace_state.toList, List.mem_append, List.mem_singleton] at hs
      rcases hs with hs | rfl
      · exact htr2 s hs
      · exact hQ.2 node.self t hself ht hi
    have htraces2 : ∀ s ∈ (if goal node.self then node.toList ++ st.traces
        else st.traces), Q s := by
      by_cases hg : goal node.self = true
      · rw [if_pos hg]
        intro s hs
        rcases List.mem_append.mp hs with hs | hs
        · exact hnode s hs
        · exact htr s hs
      · rw [if_neg hg]; exact htr
    have hcsflat : ∀ s ∈ st.containedSolution ++ (node.toList ++ st.traces),
        Q s := by
      intro s hs
      rcases List.mem_append.mp hs with hs | hs
      · exact hcs s hs
      · rcases List.mem_append.mp hs with hs | hs
        · exact hnode s hs
        · exact htr s hs
    have hcs2 : ∀ s ∈ (if goal node.self
        then st.containedSolution ++ (node.toList ++ st.traces)
        else st.containedSolution), Q s := by
      by_cases hg : goal node.self = true
      · rw [if_pos hg]; exact hcsflat
      · rw [if_neg hg]; exact hcs
    refine ⟨?_, ?_, ?_, ?_, ?_, ?_⟩
    · -- waiting
      intro x hx
      by_cases hm : node.self ∈ st.passed
      · rw [if_pos hm] at hx
        exact hw x (hrest x hx)
      · rw [if_neg hm] at hx
        rcases List.mem_append.mp hx with hx | hx
        · exact hw x (hrest x hx)
        · exact hchild x hx
    · -- popped
      intro x hx
      rcases List.mem_append.mp hx with hx | hx
      · exact hpop x hx
      · simp only [List.mem_singleton] at hx
        subst hx
        exact hnode
    · -- passed
      intro s hs
      by_cases hm : node.self ∈ st.passed
      · rw [if_pos hm] at hs
        exact hpass s hs
      · rw [if_neg hm] at hs
        rcases List.mem_append.mp hs with hs | hs
        · exact hpass s hs
        · simp only [List.mem_singleton] at hs
          subst hs
          exact hself
    · exact htraces2
    · exact hcs2
    · -- result
      intro l hl
      by_cases hg : goal node.self = true
      · rw [if_pos hg] at hl
        rcases List.mem_append.mp hl with hl | hl
        · exact hres l hl
        · simp only [List.mem_singleton] at hl
          subst hl
          exact hcsflat
      · rw [if_neg hg] at hl
        exact hres l hl

theorem solverStepN_QInv {σ : Type} [DecidableEq σ] {cfg : Config σ}
    {Q : σ → Prop} (goal : σ → Bool) (ord : search_order)
    (hQ : QClosed cfg Q) (n : Nat) :
    SolverQInv Q (solverStepN cfg goal ord n) := by
  induction n with
  | zero => exact solverInit_QInv hQ
  | succ n ih => exact solverStep_QInv hQ ih

/-- The `passed` list never holds a state twice: the membership test
before `passed.push_back(currentState)` guarantees it. -/
theorem solverStepN_passed_nodup {σ : Type} [DecidableEq σ] (cfg : Config σ)
    (goal : σ → Bool) (ord : search_order) (n : Nat) :
    (solverStepN cfg goal ord n).passed.Nodup := by
  induction n with
  | zero => simp [solverStepN, solverInit]
  | succ n ih =>
    have hsucc : solverStepN cfg goal ord (n + 1) =
        solverStep cfg goal ord (solverStepN cfg goal ord n) := rfl
    rw [hsucc]
    set st := solverStepN cfg goal ord n with hst
    cases hp : popOrd ord st.waiting with
    | none => unfold solverStep; rw [hp]; exact ih
    | some pr =>
      obtain ⟨node, rest⟩ := pr
      rw [solverStep_eq cfg goal ord st node rest hp]
      dsimp only
      by_cases hm : node.self ∈ st.passed
      · rw [if_pos hm]; exact ih
      · rw [if_neg hm]
        simpa [List.nodup_append] using ⟨ih, hm⟩

/-- Every popped node's state ends up in `passed`: either it was already
there (the pop is a no-op for expansion) or the expansion adds it. -/
theorem solverStepN_popped_passed {σ : Type} [DecidableEq σ] (cfg : Config σ)
    (goal : σ → Bool) (ord : search_order) (n : Nat) :
    ∀ p ∈ (solverStepN cfg goal ord n).popped,
      p.self ∈ (solverStepN cfg goal ord n).passed := by
  induction n with
  | zero => simp [solverStepN, solverInit]
  | succ n ih =>
    have hsucc : solverStepN cfg goal ord (n + 1) =
        solverStep cfg goal ord (solverStepN cfg goal ord n) := rfl
    rw [hsucc]
    set st := solverStepN cfg goal ord n with hst
    cases hp : popOrd ord st.waiting with
    | none => unfold solverStep; rw [hp]; exact ih
    | some pr =>
      obtain ⟨node, rest⟩ := pr
      rw [solverStep_eq cfg goal ord st node rest hp]
      dsimp only
      intro p hpm
      rcases List.mem_append.mp hpm with hpm | hpm
      · by_cases hm : node.self ∈ st.passed
        · rw [if_pos hm]; exact ih p hpm
        · rw [if_neg hm]
          exact List.mem_append.mpr (Or.inl (ih p hpm))
      · simp only [List.mem_singleton] at hpm
        subst hpm
        by_cases hm : p.self ∈ st.passed
        · rw [if_pos hm]; exact hm
        · rw [if_neg hm]; simp

/-- One result entry is appended per goal-satisfying pop and none
otherwise. -/
theorem solverStepN_result_count {σ : Type} [DecidableEq σ] (cfg : Config σ)
    (goal : σ → Bool) (ord : search_order) (n : Nat) :
    (solverStepN cfg goal ord n).result.length =
      ((solverStepN cfg goal ord n).popped.filter
        (fun p => goal p.self)).length := by
  induction n with
  | zero => simp [solverStepN, solverInit]
  | succ n ih =>
    have hsucc : solverStepN cfg goal ord (n + 1) =
        solverStep cfg goal ord (solverStepN cfg goal ord n) := rfl
    rw [hsucc]
    set st := solverStepN cfg goal ord n with hst
    cases hp : popOrd ord st.waiting with
    | none => unfold solverStep; rw [hp]; exact ih
    | some pr =>
      obtain ⟨node, rest⟩ := pr
      rw [solverStep_eq cfg goal ord st node rest hp]
      dsimp only
      by_cases hg : goal node.self = true
      · rw [if_pos hg]
        simp [List.filter_append, hg, ih]
      · rw [if_neg hg]
        have hg' : goal node.self = false := bool_eq_false hg
        simp [List.filter_append, hg', ih]

/-- Every node in the waiting list is either the seeded root (pushed with
no invariant check) or a child whose state passed the invariant. -/
theorem solverStepN_waiting_inv {σ : Type} [DecidableEq σ] (cfg : Config σ)
    (goal : σ → Bool) (ord : search_order) (n : Nat) :
    ∀ x ∈ (solverStepN cfg goal ord n).waiting,
      x = .root cfg.initialState ∨ cfg.invariantFunction x.self = true := by
  induction n with
  | zero =>
    intro x hx
    simp only [solverStepN, solverInit, List.mem_singleton] at hx
    exact Or.inl hx
  | succ n ih =>
    have hsucc : solverStepN cfg goal ord (n + 1) =
        solverStep cfg goal ord (solverStepN cfg goal ord n) := rfl
    rw [hsucc]
    set st := solverStepN cfg goal ord n with hst
    cases hp : popOrd ord st.waiting with
    | none => unfold solverStep; rw [hp]; exact ih
    | some pr =>
      obtain ⟨node, rest⟩ := pr
      obtain ⟨hmem, hrest⟩ := popOrd_mem hp
      rw [solverStep_eq cfg goal ord st node rest hp]
      dsimp only
      intro x hx
      by_cases hm : node.self ∈ st.passed
      · rw [if_pos hm] at hx
        exact ih x (hrest x hx)
      · rw [if_neg hm] at hx
        rcases List.mem_append.mp hx with hx | hx
        · exact ih x (hrest x hx)
        · obtain ⟨t, _, hi, rfl⟩ := childList_mem hx
          exact Or.inr (by simpa [trace_state.self] using hi)

/-- While the waiting list is non-empty, every iteration pops exactly one
node (the driver never stops early, goal or not). -/
theorem solverStep_pops {σ : Type} [DecidableEq σ] (cfg : Config σ)
    (goal : σ → Bool) (ord : search_order) (st : SolverState σ)
    (h : st.waiting ≠ []) :
    (solverStep cfg goal ord st).popped.length = st.popped.length + 1 := by
  obtain ⟨node, rest, hp⟩ := @popOrd_isSome _ ord _ h
  rw [solverStep_eq cfg goal ord st node rest hp]
  dsimp only
  simp

/-- Once the waiting list has emptied, the loop has terminated: further
iterations change nothing. -/
theorem solverStep_fixed {σ : Type} [DecidableEq σ] (cfg : Config σ)
    (goal : σ → Bool) (ord : search_order) (st : SolverState σ)
    (h : st.waiting = []) : solverStep cfg goal ord st = st := by
  unfold solverStep
  rw [popOrd_none h]

/-- Explicit form of one cost-solver iteration on a successful pop. -/
theorem costStep_eq {σ κ : Type} [DecidableEq σ] [DecidableEq κ]
    (cfg : CostConfig σ κ) (goal : σ → Bool) (pi : Nat → Nat)
    (st : CostSolverState σ κ) (top : κ × trace_state σ × Nat)
    (hp : costPop cfg pi st.waiting = some top) :
    costStep cfg goal pi st =
      { waiting :=
          if top.2.1.self ∈ st.passed then st.waiting.erase top
          else st.waiting.erase top ++
            (genChildren cfg
              (if goal top.2.1.self then trace_state.rootOf top.2.1
               else top.2.1) top.2.1.self top.1 st.nextIdx
              (cfg.transitionFunction top.2.1.self)).1
        nextIdx :=
          if top.2.1.self ∈ st.passed then st.nextIdx
          else (genChildren cfg
              (if goal top.2.1.self then trace_state.rootOf top.2.1
               else top.2.1) top.2.1.self top.1 st.nextIdx
              (cfg.transitionFunction top.2.1.self)).2
        passed :=
          if top.2.1.self ∈ st.passed then st.passed
          else st.passed ++ [top.2.1.self]
        solution :=
          if goal top.2.1.self then top.2.1.toList ++ st.solution
          else st.solution
        containedSolution :=
          if goal top.2.1.self
          then st.containedSolution ++ (top.2.1.toList ++ st.solution)
          else st.containedSolution
        result :=
          if goal top.2.1.self
          then st.result ++ [st.containedSolution ++ (top.2.1.toList ++ st.solution)]
          else st.result
        popped := st.popped ++ [(top.1, top.2.1)] } := by
  unfold costStep
  rw [hp]
  unfold costAfterPop costGoalUpdate
  by_cases hg : goal top.2.1.self = true
  · by_cases hm : top.2.1.self ∈ st.passed
    · simp [hg, hm]
    · simp [hg, hm]
  · by_cases hm : top.2.1.self ∈ st.passed
    · simp [hg, hm]
    · simp [hg, hm]

/-- Members of `genChildren` are invariant-passing generated successors,
costed with the cost function applied to the popped node's cost. -/
theorem genChildren_mem {σ κ : Type} {cfg : CostConfig σ κ}
    {parent : trace_state σ} {cur : σ} {curCost : κ} {i : Nat}
    {ts : List (σ → σ)} {e : κ × trace_state σ × Nat}
    (h : e ∈ (genChildren cfg parent cur curCost i ts).1) :
    ∃ t ∈ ts, cfg.invariantFunction (t cur) = true ∧
      ∃ j, e = (cfg.costFunction (t cur) curCost, .child parent (t cur), j) := by
  induction ts generalizing i with
  | nil => simp [genChildren] at h
  | cons t ts ih =>
    simp only [genChildren] at h
    by_cases hi : cfg.invariantFunction (t cur) = true
    · rw [if_pos hi] at h
      rcases List.mem_cons.mp h with rfl | h'
      · exact ⟨t, by simp, hi, i, rfl⟩
      · obtain ⟨t', ht', hi', j, he⟩ := ih h'
        exact ⟨t', by simp [ht'], hi', j, he⟩
    · rw [if_neg hi] at h
      obtain ⟨t', ht', hi', j, he⟩ := ih h
      exact ⟨t', by simp [ht'], hi', j, he⟩

/-- `QClosed` for a cost configuration. -/
def QClosedC {σ κ : Type} (cfg : CostConfig σ κ) (Q : σ → Prop) : Prop :=
  Q cfg.initialState ∧
  ∀ s t, Q s → t ∈ cfg.transitionFunction s →
    cfg.invariantFunction (t s) = true → Q (t s)

/-- `Q` holds at every state recorded anywhere in the cost-solver loop
state. -/
def CostQInv {σ κ : Type} (Q : σ → Prop) (st : CostSolverState σ κ) : Prop :=
  (∀ x ∈ st.waiting, ∀ s ∈ x.2.1.toList, Q s) ∧
  (∀ x ∈ st.popped, ∀ s ∈ x.2.toList, Q s) ∧
  (∀ s ∈ st.passed, Q s) ∧
  (∀ s ∈ st.solution, Q s) ∧
  (∀ s ∈ st.containedSolution, Q s) ∧
  (∀ l ∈ st.result, ∀ s ∈ l, Q s)

theorem costInit_QInv {σ κ : Type} {cfg : CostConfig σ κ} {Q : σ → Prop}
    (hQ : QClosedC cfg Q) : CostQInv Q (costInit cfg) := by
  refine ⟨?_, ?_, ?_, ?_, ?_, ?_⟩ <;>
    simp [costInit, trace_state.toList, hQ.1]

theorem costStep_QInv {σ κ : Type} [DecidableEq σ] [DecidableEq κ]
    {cfg : CostConfig σ κ} {Q : σ → Prop} {goal : σ → Bool} {pi : Nat → Nat}
    {st : CostSolverState σ κ}
    (hQ : QClosedC cfg Q) (h : CostQInv Q st) :
    CostQInv Q (costStep cfg goal pi st) := by
  cases hp : costPop cfg pi st.waiting with
  | none => unfold costStep; rw [hp]; exact h
  | some top =>
    have hmem : top ∈ st.waiting := costPop_mem hp
    obtain ⟨hw, hpop, hpass, hsol, hcs, hres⟩ := h
    have hnode : ∀ s ∈ top.2.1.toList, Q s := hw top hmem
    rw [costStep_eq cfg goal pi st top hp]
    unfold CostQInv
    dsimp only
    have hself : Q top.2.1.self := hnode _ (trace_state.self_mem_toList top.2.1)
    have htr2 : ∀ s ∈ (if goal top.2.1.self then trace_state.rootOf top.2.1
        else top.2.1).toList, Q s := by
      by_cases hg : goal top.2.1.self = true
      · rw [if_pos hg, trace_state.rootOf_toList]
        intro s hs
        simp only [List.mem_singleton] at hs
        subst hs
        exact hnode _ (trace_state.firstState_mem_toList top.2.1)
      · rw [if_neg hg]
        exact hnode
    have hchild : ∀ x ∈ (genChildren cfg
        (if goal top.2.1.self then trace_state.rootOf top.2.1 else top.2.1)
        top.2.1.self top.1 st.nextIdx
        (cfg.transitionFunction top.2.1.self)).1,
        ∀ s ∈ x.2.1.toList, Q s := by
      intro x hx
      obtain ⟨t, ht, hi, j, rfl⟩ := genChildren_mem hx
      intro s hs
      simp only [trace_state.toList, List.mem_append, List.mem_singleton] at hs
      rcases hs with hs | rfl
      · exact htr2 s hs
      · exact hQ.2 top.2.1.self t hself ht hi
    have hsolflat : ∀ s ∈ top.2.1.toList ++ st.solution, Q s := by
      intro s hs
      rcases List.mem_append.mp hs with hs | hs
      · exact hnode s hs
      · exact hsol s hs
    have hcsflat : ∀ s ∈ st.containedSolution ++ (top.2.1.toList ++ st.solution),
        Q s := by
      intro s hs
      rcases List.mem_append.mp hs with hs | hs
      · exact hcs s hs
      · exact hsolflat s hs
    refine ⟨?_, ?_, ?_, ?_, ?_, ?_⟩
    · intro x hx
      by_cases hm : top.2.1.self ∈ st.passed
      · rw [if_pos hm] at hx
        exact hw x (List.mem_of_mem_erase hx)
      · rw [if_neg hm] at hx
        rcases List.mem_append.mp hx with hx | hx
        · exact hw x (List.mem_of_mem_erase hx)
        · exact hchild x hx
    · intro x hx
      rcases List.mem_append.mp hx with hx | hx
      · exact hpop x hx
      · simp only [List.mem_singleton] at hx
        subst hx
        exact hnode
    · intro s hs
      by_cases hm : top.2.1.self ∈ st.passed
      · rw [if_pos hm] at hs
        exact hpass s hs
      · rw [if_neg hm] at hs
        rcases List.mem_append.mp hs with hs | hs
        · exact hpass s hs
        · simp only [List.mem_singleton] at hs
          subst hs
          exact hself
    · by_cases hg : goal top.2.1.self = true
      · rw [if_pos hg]; exact hsolflat
      · rw [if_neg hg]; exact hsol
    · by_cases hg : goal top.2.1.self = true
      · rw [if_pos hg]; exact hcsflat
      · rw [if_neg hg]; exact hcs
    · intro l hl
      by_cases hg : goal top.2.1.self = true
      · rw [if_pos hg] at hl
        rcases List.mem_append.mp hl with hl | hl
        · exact hres l hl
        · simp only [List.mem_singleton] at hl
          subst hl
          exact hcsflat
      · rw [if_neg hg] at hl
        exact hres l hl

theorem costStepN_QInv {σ κ : Type} [DecidableEq σ] [DecidableEq κ]
    {cfg : CostConfig σ κ} {Q : σ → Prop} (goal : σ → Bool) (pi : Nat → Nat)
    (hQ : QClosedC cfg Q) (n : Nat) :
    CostQInv Q (costStepN cfg goal pi n) := by
  induction n with
  | zero => exact costInit_QInv hQ
  | succ n ih => exact costStep_QInv hQ ih

theorem costStepN_passed_nodup {σ κ : Type} [DecidableEq σ] [DecidableEq κ]
    (cfg : CostConfig σ κ) (goal : σ → Bool) (pi : Nat → Nat) (n : Nat) :
    (costStepN cfg goal pi n).passed.Nodup := by
  induction n with
  | zero => simp [costStepN, costInit]
  | succ n ih =>
    have hsucc : costStepN cfg goal pi (n + 1) =
        costStep cfg goal pi (costStepN cfg goal pi n) := rfl
    rw [hsucc]
    set st := costStepN cfg goal pi n with hst
    cases hp : costPop cfg pi st.waiting with
    | none => unfold costStep; rw [hp]; exact ih
    | some top =>
      rw [costStep_eq cfg goal pi st top hp]
      dsimp only
      by_cases hm : top.2.1.self ∈ st.passed
      · rw [if_pos hm]; exact ih
      · rw [if_neg hm]
        simpa [List.nodup_append] using ⟨ih, hm⟩

theorem costStepN_popped_passed {σ κ : Type} [DecidableEq σ] [DecidableEq κ]
    (cfg : CostConfig σ κ) (goal : σ → Bool) (pi : Nat → Nat) (n : Nat) :
    ∀ p ∈ (costStepN cfg goal pi n).popped,
      p.2.self ∈ (costStepN cfg goal pi n).passed := by
  induction n with
  | zero => simp [costStepN, costInit]
  | succ n ih =>
    have hsucc : costStepN cfg goal pi (n + 1) =
        costStep cfg goal pi (costStepN cfg goal pi n) := rfl
    rw [hsucc]
    set st := costStepN cfg goal pi n with hst
    cases hp : costPop cfg pi st.waiting with
    | none => unfold costStep; rw [hp]; exact ih
    | some top =>
      rw [costStep_eq cfg goal pi st top hp]
      dsimp only
      intro p hpm
      rcases List.mem_append.mp hpm with hpm | hpm
      · by_cases hm : top.2.1.self ∈ st.passed
        · rw [if_pos hm]; exact ih p hpm
        · rw [if_neg hm]
          exact List.mem_append.mpr (Or.inl (ih p hpm))
      · simp only [List.mem_singleton] at hpm
        subst hpm
        by_cases hm : top.2.1.self ∈ st.passed
        · rw [if_pos hm]; exact hm
        · rw [if_neg hm]; simp

theorem costStepN_result_count {σ κ : Type} [DecidableEq σ] [DecidableEq κ]
    (cfg : CostConfig σ κ) (goal : σ → Bool) (pi : Nat → Nat) (n : Nat) :
    (costStepN cfg goal pi n).result.length =
      ((costStepN cfg goal pi n).popped.filter
        (fun p => goal p.2.self)).length := by
  induction n with
  | zero => simp [costStepN, costInit]
  | succ n ih =>
    have hsucc : costStepN cfg goal pi (n + 1) =
        costStep cfg goal pi (costStepN cfg goal pi n) := rfl
    rw [hsucc]
    set st := costStepN cfg goal pi n with hst
    cases hp : costPop cfg pi st.waiting with
    | none => unfold costStep; rw [hp]; exact ih
    | some top =>
      rw [costStep_eq cfg goal pi st top hp]
      dsimp only
      by_cases hg : goal top.2.1.self = true
      · rw [if_pos hg]
        simp [List.filter_append, hg, ih]
      · rw [if_neg hg]
        have hg' : goal top.2.1.self = false := bool_eq_false hg
        simp [List.filter_append, hg', ih]

/-- Every entry in the priority queue is either the seeded root entry
(pushed with no invariant check) or a child whose state passed the
invariant. -/
theorem costStepN_waiting_inv {σ κ : Type} [DecidableEq σ] [DecidableEq κ]
    (cfg : CostConfig σ κ) (goal : σ → Bool) (pi : Nat → Nat) (n : Nat) :
    ∀ x ∈ (costStepN cfg goal pi n).waiting,
      x.2.1 = .root cfg.initialState ∨
        cfg.invariantFunction x.2.1.self = true := by
  induction n with
  | zero =>
    intro x hx
    simp only [costStepN, costInit, List.mem_singleton] at hx
    subst hx
    exact Or.inl rfl
  | succ n ih =>
    have hsucc : costStepN cfg goal pi (n + 1) =
        costStep cfg goal pi (costStepN cfg goal pi n) := rfl
    rw [hsucc]
    set st := costStepN cfg goal pi n with hst
    cases hp : costPop cfg pi st.waiting with
    | none => unfold costStep; rw [hp]; exact ih
    | some top =>
      rw [costStep_eq cfg goal pi st top hp]
      dsimp only
      intro x hx
      by_cases hm : top.2.1.self ∈ st.passed
      · rw [if_pos hm] at hx
        exact ih x (List.mem_of_mem_erase hx)
      · rw [if_neg hm] at hx
        rcases List.mem_append.mp hx with hx | hx
        · exact ih x (List.mem_of_mem_erase hx)
        · obtain ⟨t, _, hi, j, rfl⟩ := genChildren_mem hx
          exact Or.inr (by simpa [trace_state.self] using hi)

/-- While the priority queue is non-empty, every iteration pops exactly
one entry. -/
theorem costStep_pops {σ κ : Type} [DecidableEq σ] [DecidableEq κ]
    (cfg : CostConfig σ κ) (goal : σ → Bool) (pi : Nat → Nat)
    (st : CostSolverState σ κ) (h : st.waiting ≠ []) :
    (costStep cfg goal pi st).popped.length = st.popped.length + 1 := by
  cases hw : st.waiting with
  | nil => exact absurd hw h
  | cons a as =>
    obtain ⟨top, hp⟩ := costPop_isSome cfg pi a as
    have hp' : costPop cfg pi st.waiting = some top := by rw [hw]; exact hp
    rw [costStep_eq cfg goal pi st top hp']
    dsimp only
    simp

theorem costStep_fixed {σ κ : Type} [DecidableEq σ] [DecidableEq κ]
    (cfg : CostConfig σ κ) (goal : σ → Bool) (pi : Nat → Nat)
    (st : CostSolverState σ κ) (h : st.waiting = []) :
    costStep cfg goal pi st = st := by
  unfold costStep
  rw [h, costPop_none]

/-- The heap comparator consults the address map only through the order
of its values, so two address maps inducing the same order give the same
comparator. -/
theorem pairLt_congr {σ κ : Type} (lt : κ → κ → Bool) (pi1 pi2 : Nat → Nat)
    (hord : ∀ i j, pi1 i < pi1 j ↔ pi2 i < pi2 j)
    (a b : κ × trace_state σ × Nat) :
    pairLt lt pi1 a b = pairLt lt pi2 a b := by
  unfold pairLt
  have : decide (pi1 a.2.2 < pi1 b.2.2) = decide (pi2 a.2.2 < pi2 b.2.2) := by
    by_cases h : pi1 a.2.2 < pi1 b.2.2
    · rw [decide_eq_true h, decide_eq_true ((hord _ _).mp h)]
    · rw [decide_eq_false h, decide_eq_false (fun hx => h ((hord _ _).mpr hx))]
  rw [this]

theorem pqMaxAux_congr {α : Type} (cmp1 cmp2 : α → α → Bool)
    (h : ∀ a b, cmp1 a b = cmp2 a b) (m : α) (l : List α) :
    pqMaxAux cmp1 m l = pqMaxAux cmp2 m l := by
  induction l generalizing m with
  | nil => rfl
  | cons y ys ih =>
    simp only [pqMaxAux, h m y]
    exact ih _

theorem pqMax_congr {α : Type} (cmp1 cmp2 : α → α → Bool)
    (h : ∀ a b, cmp1 a b = cmp2 a b) (l : List α) :
    pqMax cmp1 l = pqMax cmp2 l := by
  cases l with
  | nil => rfl
  | cons a as => simp only [pqMax, pqMaxAux_congr cmp1 cmp2 h a as]

theorem costStep_pi_congr {σ κ : Type} [DecidableEq σ] [DecidableEq κ]
    (cfg : CostConfig σ κ) (goal : σ → Bool) (pi1 pi2 : Nat → Nat)
    (hord : ∀ i j, pi1 i < pi1 j ↔ pi2 i < pi2 j) (st : CostSolverState σ κ) :
    costStep cfg goal pi1 st = costStep cfg goal pi2 st := by
  unfold costStep costPop
  rw [pqMax_congr (pairLt cfg.lt pi1) (pairLt cfg.lt pi2)
    (pairLt_congr cfg.lt pi1 pi2 hord) st.waiting]

/-- The whole cost-solver run depends on the node addresses only through
their relative order. -/
theorem costStepN_pi_congr {σ κ : Type} [DecidableEq σ] [DecidableEq κ]
    (cfg : CostConfig σ κ) (goal : σ → Bool) (pi1 pi2 : Nat → Nat)
    (hord : ∀ i j, pi1 i < pi1 j ↔ pi2 i < pi2 j) (n : Nat) :
    costStepN cfg goal pi1 n = costStepN cfg goal pi2 n := by
  induction n with
  | zero => rfl
  | succ n ih =>
    have h1 : costStepN cfg goal pi1 (n + 1) =
        costStep cfg goal pi1 (costStepN cfg goal pi1 n) := rfl
    have h2 : costStepN cfg goal pi2 (n + 1) =
        costStep cfg goal pi2 (costStepN cfg goal pi2 n) := rfl
    rw [h1, h2, ih, costStep_pi_congr cfg goal pi1 pi2 hord]

/-! The family.cpp client: Japanese river-crossing puzzle model. -/

/-- `person_t::pos` (the only data member of `person_t`). -/
inductive PersonPos where
  | shore1
  | onboard
  | shore2
deriving DecidableEq, Repr

/-- `boat_t::pos`. -/
inductive BoatPos where
  | shore1
  | travel
  | shore2
deriving DecidableEq, Repr

/-- `struct boat_t`; `capacity` and `passengers` are `uint16_t`, embedded
as `Nat` reduced mod 2^16 wherever the source arithmetic can wrap. -/
structure boat_t where
  pos : BoatPos
  capacity : Nat
  passengers : Nat
deriving DecidableEq, Repr

/-- `struct state_t`: the boat plus the eight persons (each reduced to its
`pos` field, the only member that `operator==` compares). -/
structure state_t where
  boat : boat_t
  persons : Fin 8 → PersonPos
deriving DecidableEq

def mother : Fin 8 := 0
def father : Fin 8 := 1
def daughter1 : Fin 8 := 2
def daughter2 : Fin 8 := 3
def son1 : Fin 8 := 4
def son2 : Fin 8 := 5
def policeman : Fin 8 := 6
def prisoner : Fin 8 := 7

/-- `state_t{}`: boat on shore1 with capacity 2 and no passengers, all
persons on shore1. -/
def famInit : state_t :=
  { boat := { pos := .shore1, capacity := 2, passengers := 0 }
    persons := fun _ => .shore1 }

/-- Transition: the boat starts traveling. -/
def goTravel (s : state_t) : state_t :=
  { s with boat := { s.boat with pos := .travel } }

/-- Transition: the boat arrives at shore1; everyone onboard disembarks. -/
def arriveShore1 (s : state_t) : state_t :=
  { s with boat := { s.boat with pos := .shore1, passengers := 0 }
           persons := fun i =>
             if s.persons i = .onboard then .shore1 else s.persons i }

/-- Transition: the boat arrives at shore2; everyone onboard disembarks. -/
def arriveShore2 (s : state_t) : state_t :=
  { s with boat := { s.boat with pos := .shore2, passengers := 0 }
           persons := fun i =>
             if s.persons i = .onboard then .shore2 else s.persons i }

/-- Transition: person `i` boards the boat (`++passengers` on a
`uint16_t`). -/
def boardBoat (i : Fin 8) (s : state_t) : state_t :=
  { s with persons := Function.update s.persons i .onboard
           boat := { s.boat with
                     passengers := (s.boat.passengers + 1) % 65536 } }

/-- Transition: person `i` leaves the boat to shore1 (`--passengers` on a
`uint16_t`). -/
def leaveShore1 (i : Fin 8) (s : state_t) : state_t :=
  { s with persons := Function.update s.persons i .shore1
           boat := { s.boat with
                     passengers := (s.boat.passengers + 65535) % 65536 } }

/-- Transition: person `i` leaves the boat to shore2. -/
def leaveShore2 (i : Fin 8) (s : state_t) : state_t :=
  { s with persons := Function.update s.persons i .shore2
           boat := { s.boat with
                     passengers := (s.boat.passengers + 65535) % 65536 } }

/-- `transitions` from family.cpp: boat moves first, then one transition
per person able to board or disembark, in person-index order. -/
def famTransitions (s : state_t) : List (state_t → state_t) :=
  (match s.boat.pos with
   | .shore1 => if s.boat.passengers > 0 then [goTravel] else []
   | .shore2 => if s.boat.passengers > 0 then [goTravel] else []
   | .travel => [arriveShore1, arriveShore2]) ++
  (List.finRange 8).flatMap (fun i =>
    match s.persons i with
    | .shore1 => if s.boat.pos = .shore1 then [boardBoat i] else []
    | .shore2 => if s.boat.pos = .shore2 then [boardBoat i] else []
    | .onboard =>
        if s.boat.pos = .shore1 then [leaveShore1 i]
        else if s.boat.pos = .shore2 then [leaveShore2 i] else [])

/-- The kids-cannot-travel-unaccompanied cascade from
`river_crossing_valid` (true = reject). -/
def kid_alone_reject (s : state_t) : Bool :=
  if s.persons daughter1 = .onboard then
    (s.boat.passengers == 1 || s.persons daughter2 == .onboard ||
     s.persons son1 == .onboard || s.persons son2 == .onboard ||
     s.persons prisoner == .onboard)
  else if s.persons daughter2 = .onboard then
    (s.boat.passengers == 1 || s.persons daughter1 == .onboard ||
     s.persons son1 == .onboard || s.persons son2 == .onboard ||
     s.persons prisoner == .onboard)
  else if s.persons son1 = .onboard then
    (s.boat.passengers == 1 || s.persons daughter1 == .onboard ||
     s.persons daughter2 == .onboard || s.persons son2 == .onboard ||
     s.persons prisoner == .onboard)
  else if s.persons son2 = .onboard then
    (s.boat.passengers == 1 || s.persons daughter1 == .onboard ||
     s.persons daughter2 == .onboard || s.persons son1 == .onboard ||
     s.persons prisoner == .onboard)
  else false

/-- The prisoner-with-family check (true = reject). -/
def prisoner_family_reject (s : state_t) : Bool :=
  if s.persons prisoner ≠ s.persons policeman then
    (s.persons daughter1 == s.persons prisoner ||
     s.persons daughter2 == s.persons prisoner ||
     s.persons son1 == s.persons prisoner ||
     s.persons son2 == s.persons prisoner ||
     s.persons mother == s.persons prisoner ||
     s.persons father == s.persons prisoner)
  else false

/-- The prisoner-cannot-sail-alone check (true = reject). -/
def prisoner_boat_reject (s : state_t) : Bool :=
  s.persons prisoner == .onboard && decide (s.boat.passengers < 2)

/-- The daughters-with-father / sons-with-mother cascade (true = reject). -/
def family_pair_reject (s : state_t) : Bool :=
  if s.persons daughter1 = s.persons father ∧
     s.persons daughter1 ≠ s.persons mother then true
  else if s.persons daughter2 = s.persons father ∧
     s.persons daughter2 ≠ s.persons mother then true
  else if s.persons son1 = s.persons mother ∧
     s.persons son1 ≠ s.persons father then true
  else if s.persons son2 = s.persons mother ∧
     s.persons son2 ≠ s.persons father then true
  else false

/-- `river_crossing_valid` from family.cpp. -/
def river_crossing_valid (s : state_t) : Bool :=
  if s.boat.passengers > s.boat.capacity then false
  else if s.boat.pos = .travel &&
      (kid_alone_reject s || prisoner_family_reject s ||
       prisoner_boat_reject s) then false
  else if family_pair_reject s then false
  else true

/-- `struct cost_t` from family.cpp. -/
structure cost_t where
  depth : Nat
  noise : Nat
deriving DecidableEq, Repr

/-- `cost_t::operator<`: deliberately inverted (deeper / noisier counts
as "less") so that the max-heap of `costSolver` pops the shallowest,
quietest node first. -/
def famLt (a b : cost_t) : Bool :=
  if a.depth > b.depth then true
  else if b.depth > a.depth then false
  else decide (a.noise > b.noise)

/-- `goal` from family.cpp: everyone on shore2. -/
def famGoal (s : state_t) : Bool :=
  (List.finRange 8).all (fun i => s.persons i == .shore2)

/-- The cost-enabled state space built by `solve` in family.cpp, generic
in the cost-combination lambda that `solve` receives. -/
def famCfg (costFn : state_t → cost_t → cost_t) : CostConfig state_t cost_t :=
  { initialState := famInit
    initialCost := { depth := 0, noise := 0 }
    transitionFunction := famTransitions
    invariantFunction := river_crossing_valid
    costFunction := costFn
    lt := famLt }

/-- A valid state never has more passengers than the boat's capacity:
the very first check of `river_crossing_valid`. -/
theorem river_valid_passengers {s : state_t}
    (h : river_crossing_valid s = true) :
    s.boat.passengers ≤ s.boat.capacity := by
  unfold river_crossing_valid at h
  by_cases hc : s.boat.passengers > s.boat.capacity
  · rw [if_pos hc] at h
    exact absurd h (by simp)
  · omega

theorem goTravel_capacity (s : state_t) :
    (goTravel s).boat.capacity = s.boat.capacity := by
  simp [goTravel]

theorem arriveShore1_capacity (s : state_t) :
    (arriveShore1 s).boat.capacity = s.boat.capacity := by
  simp [arriveShore1]

theorem arriveShore2_capacity (s : state_t) :
    (arriveShore2 s).boat.capacity = s.boat.capacity := by
  simp [arriveShore2]

theorem boardBoat_capacity (i : Fin 8) (s : state_t) :
    (boardBoat i s).boat.capacity = s.boat.capacity := by
  simp [boardBoat]

theorem leaveShore1_capacity (i : Fin 8) (s : state_t) :
    (leaveShore1 i s).boat.capacity = s.boat.capacity := by
  simp [leaveShore1]

theorem leaveShore2_capacity (i : Fin 8) (s : state_t) :
    (leaveShore2 i s).boat.capacity = s.boat.capacity := by
  simp [leaveShore2]

/-- No generated transition of the family model changes the boat's
capacity. -/
theorem famTransitions_capacity (s : state_t) :
    ∀ t ∈ famTransitions s, (t s).boat.capacity = s.boat.capacity := by
  intro t ht
  unfold famTransitions at ht
  rcases List.mem_append.mp ht with ht | ht
  · rcases hb : s.boat.pos with _ | _ | _ <;> rw [hb] at ht <;> dsimp only at ht
    · by_cases hp : s.boat.passengers > 0
      · rw [if_pos hp] at ht
        simp only [List.mem_singleton] at ht
        rw [ht]
        exact goTravel_capacity s
      · rw [if_neg hp] at ht
        exact absurd ht (by simp)
    · rcases List.mem_cons.mp ht with ht | ht
      · rw [ht]
        exact arriveShore1_capacity s
      · simp only [List.mem_singleton] at ht
        rw [ht]
        exact arriveShore2_capacity s
    · by_cases hp : s.boat.passengers > 0
      · rw [if_pos hp] at ht
        simp only [List.mem_singleton] at ht
        rw [ht]
        exact goTravel_capacity s
      · rw [if_neg hp] at ht
        exact absurd ht (by simp)
  · rw [List.mem_flatMap] at ht
    obtain ⟨i, _, hti⟩ := ht
    rcases hpos : s.persons i with _ | _ | _ <;> rw [hpos] at hti <;>
      dsimp only at hti
    · by_cases hb : s.boat.pos = .shore1
      · rw [if_pos hb] at hti
        simp only [List.mem_singleton] at hti
        rw [hti]
        exact boardBoat_capacity i s
      · rw [if_neg hb] at hti
        exact absurd hti (by simp)
    · by_cases hb : s.boat.pos = .shore1
      · rw [if_pos hb] at hti
        simp only [List.mem_singleton] at hti
        rw [hti]
        exact leaveShore1_capacity i s
      · rw [if_neg hb] at hti
        by_cases hb2 : s.boat.pos = .shore2
        · rw [if_pos hb2] at hti
          simp only [List.mem_singleton] at hti
          rw [hti]
          exact leaveShore2_capacity i s
        · rw [if_neg hb2] at hti
          exact absurd hti (by simp)
    · by_cases hb : s.boat.pos = .shore2
      · rw [if_pos hb] at hti
        simp only [List.mem_singleton] at hti
        rw [hti]
        exact boardBoat_capacity i s
      · rw [if_neg hb] at hti
        exact absurd hti (by simp)

/-! Small concrete client models used to test the engine on specific
inputs (the states' value type mirrors a tiny puzzle client). -/

/-- Four-state test state type. -/
inductive SS where
  | s0
  | s1
  | s2
  | s3
deriving DecidableEq, Repr

/-- Test cost type wrapping a number, ordered by the usual `<`. -/
structure CN where
  v : Nat
deriving DecidableEq, Repr

/-- The usual order on `CN` (NOT inverted, unlike family.cpp's). -/
def cnLt (a b : CN) : Bool := decide (a.v < b.v)

/-- Test configuration: two goal successors reached from the initial
state; used to exercise two goal discoveries in one run. -/
def cfgTwoGoals : Config SS :=
  { initialState := .s0
    transitionFunction := fun s =>
      match s with
      | .s0 => [fun _ => .s1, fun _ => .s2]
      | _ => []
    invariantFunction := fun _ => true }

/-- Goal predicate for `cfgTwoGoals`: both successors are goals. -/
def goalTwoGoals (s : SS) : Bool := s == .s1 || s == .s2

/-- Test configuration: a chain s0 → s1 → s2 → s3 where s2 and s3 are
goals; expanding the goal s2 exhibits the root-reparenting of its
successor s3. -/
def cfgChain : Config SS :=
  { initialState := .s0
    transitionFunction := fun s =>
      match s with
      | .s0 => [fun _ => .s1]
      | .s1 => [fun _ => .s2]
      | .s2 => [fun _ => .s3]
      | .s3 => []
    invariantFunction := fun _ => true }

/-- Goal predicate for `cfgChain`. -/
def goalChain (s : SS) : Bool := s == .s2 || s == .s3

/-- Test configuration whose invariant rejects exactly the initial state,
while a transition of s1 leads back to it. -/
def cfgRejectInit : Config SS :=
  { initialState := .s0
    transitionFunction := fun s =>
      match s with
      | .s0 => [fun _ => .s1]
      | .s1 => [fun _ => .s0]
      | _ => []
    invariantFunction := fun s => !(s == .s0) }

/-- Goal predicate for `cfgRejectInit`: the initial state itself. -/
def goalRejectInit (s : SS) : Bool := s == .s0

/-- Test configuration whose invariant rejects every state. -/
def cfgRejectAll : Config SS :=
  { initialState := .s0
    transitionFunction := fun s =>
      match s with
      | .s0 => [fun _ => .s1]
      | _ => []
    invariantFunction := fun _ => false }

/-- An always-true goal predicate. -/
def goalAlways : SS → Bool := fun _ => true

/-- An always-false goal predicate. -/
def goalNever : SS → Bool := fun _ => false

/-- Cost-mode test configuration: two successors with distinct costs 1
and 2 under the plain (non-inverted) order `cnLt`. -/
def cfgCostDistinct : CostConfig SS CN :=
  { initialState := .s0
    initialCost := { v := 0 }
    transitionFunction := fun s =>
      match s with
      | .s0 => [fun _ => .s1, fun _ => .s2]
      | _ => []
    invariantFunction := fun _ => true
    costFunction := fun s _ => if s == .s1 then { v := 1 } else { v := 2 }
    lt := cnLt }

/-- Cost-mode test configuration: two successors with equal costs, so
the heap comparator falls through to the address tie-break. -/
def cfgCostTie : CostConfig SS CN :=
  { initialState := .s0
    initialCost := { v := 0 }
    transitionFunction := fun s =>
      match s with
      | .s0 => [fun _ => .s1, fun _ => .s2]
      | _ => []
    invariantFunction := fun _ => true
    costFunction := fun _ _ => { v := 5 }
    lt := cnLt }

/-- Cost-mode configuration rejecting every state, with an always-false
goal; used for the empty-result behaviour. -/
def cfgCostRejectAll : CostConfig SS CN :=
  { initialState := .s0
    initialCost := { v := 0 }
    transitionFunction := fun s =>
      match s with
      | .s0 => [fun _ => .s1]
      | _ => []
    invariantFunction := fun _ => false
    costFunction := fun _ _ => { v := 0 }
    lt := cnLt }

/-- The identity address map. -/
def piId : Nat → Nat := fun n => n

/-- An address map swapping the addresses of allocations 1 and 2. -/
def piSwap : Nat → Nat := fun n =>
  if n == 1 then 2 else if n == 2 then 1 else n

/-- An address map shifting every address up by 5 (same relative order
as `piId`). -/
def piShift : Nat → Nat := fun n => n + 5

theorem popOrd_singleton {α : Type} (ord : search_order) (x : α) :
    popOrd ord [x] = some (x, []) := by
  cases ord <;> rfl

theorem childList_eq_nil {σ : Type} {cfg : Config σ} {tr2 : trace_state σ}
    {cur : σ}
    (h : ∀ t ∈ cfg.transitionFunction cur,
      cfg.invariantFunction (t cur) = false) :
    childList cfg tr2 cur = [] := by
  unfold childList
  rw [List.filterMap_eq_nil_iff]
  intro t ht
  simp [h t ht]

theorem genChildren_eq_nil {σ κ : Type} {cfg : CostConfig σ κ}
    {parent : trace_state σ} {cur : σ} {curCost : κ} {i : Nat}
    {ts : List (σ → σ)}
    (h : ∀ t ∈ ts, cfg.invariantFunction (t cur) = false) :
    genChildren cfg parent cur curCost i ts = ([], i) := by
  induction ts generalizing i with
  | nil => rfl
  | cons t ts ih =>
    simp only [genChildren]
    rw [if_neg (by simp [h t (by simp)])]
    exact ih fun t' ht' => h t' (by simp [ht'])

/-- Once the waiting list is empty the run is stationary. -/
theorem solverStepN_stable {σ : Type} [DecidableEq σ] (cfg : Config σ)
    (goal : σ → Bool) (ord : search_order) (m : Nat)
    (h : (solverStepN cfg goal ord m).waiting = []) :
    ∀ k, m ≤ k → solverStepN cfg goal ord k = solverStepN cfg goal ord m := by
  intro k hk
  induction k with
  | zero =>
    have : m = 0 := Nat.le_zero.mp hk
    rw [this]
  | succ k ih =>
    rcases Nat.lt_or_ge m (k + 1) with hlt | hge
    · have hmk : m ≤ k := Nat.lt_succ_iff.mp hlt
      have hstep : solverStepN cfg goal ord (k + 1) =
          solverStep cfg goal ord (solverStepN cfg goal ord k) := rfl
      rw [hstep, ih hmk, solverStep_fixed cfg goal ord _ h]
    · have : m = k + 1 := Nat.le_antisymm hk hge
      rw [this]

theorem costStepN_stable {σ κ : Type} [DecidableEq σ] [DecidableEq κ]
    (cfg : CostConfig σ κ) (goal : σ → Bool) (pi : Nat → Nat) (m : Nat)
    (h : (costStepN cfg goal pi m).waiting = []) :
    ∀ k, m ≤ k → costStepN cfg goal pi k = costStepN cfg goal pi m := by
  intro k hk
  induction k with
  | zero =>
    have : m = 0 := Nat.le_zero.mp hk
    rw [this]
  | succ k ih =>
    rcases Nat.lt_or_ge m (k + 1) with hlt | hge
    · have hmk : m ≤ k := Nat.lt_succ_iff.mp hlt
      have hstep : costStepN cfg goal pi (k + 1) =
          costStep cfg goal pi (costStepN cfg goal pi k) := rfl
      rw [hstep, ih hmk, costStep_fixed cfg goal pi _ h]
    · have : m = k + 1 := Nat.le_antisymm hk hge
      rw [this]

/-- First iteration when the goal rejects the initial state and the
invariant rejects all of its candidate successors: the frontier empties
and nothing is recorded. -/
theorem solverStepN_one_rejected {σ : Type} [DecidableEq σ] (cfg : Config σ)
    (goal : σ → Bool) (ord : search_order)
    (hg : goal cfg.initialState = false)
    (hsucc : ∀ t ∈ cfg.transitionFunction cfg.initialState,
      cfg.invariantFunction (t cfg.initialState) = false) :
    solverStepN cfg goal ord 1 =
      { waiting := [], passed := [cfg.initialState], traces := []
        containedSolution := [], result := []
        popped := [trace_state.root cfg.initialState] } := by
  have hpop : popOrd ord (solverInit cfg).waiting =
      some (trace_state.root cfg.initialState, []) := by
    show popOrd ord [trace_state.root cfg.initialState] = _
    exact popOrd_singleton ord _
  have hstep : solverStepN cfg goal ord 1 =
      solverStep cfg goal ord (solverInit cfg) := rfl
  rw [hstep, solverStep_eq cfg goal ord (solverInit cfg) _ _ hpop]
  simp [solverInit, trace_state.self, hg, childList_eq_nil hsucc]

theorem costStepN_one_rejected {σ κ : Type} [DecidableEq σ] [DecidableEq κ]
    (cfg : CostConfig σ κ) (goal : σ → Bool) (pi : Nat → Nat)
    (hg : goal cfg.initialState = false)
    (hsucc : ∀ t ∈ cfg.transitionFunction cfg.initialState,
      cfg.invariantFunction (t cfg.initialState) = false) :
    costStepN cfg goal pi 1 =
      { waiting := [], nextIdx := 1, passed := [cfg.initialState]
        solution := [], containedSolution := [], result := []
        popped := [(cfg.initialCost, trace_state.root cfg.initialState)] } := by
  have hpop : costPop cfg pi (costInit cfg).waiting =
      some (cfg.initialCost, trace_state.root cfg.initialState, 0) := by
    show costPop cfg pi [(cfg.initialCost, trace_state.root cfg.initialState, 0)] = _
    rfl
  have hstep : costStepN cfg goal pi 1 = costStep cfg goal pi (costInit cfg) :=
    rfl
  rw [hstep, costStep_eq cfg goal pi (costInit cfg) _ hpop]
  simp [costInit, trace_state.self, hg, genChildren_eq_nil hsucc]

theorem cnLt_swo : IsSWOb cnLt := by
  constructor
  · intro a b h
    simp only [cnLt, decide_eq_true_eq] at h
    simp only [cnLt, decide_eq_false_iff_not]
    omega
  · intro a b c h1 h2
    simp only [cnLt, decide_eq_false_iff_not] at h1 h2 ⊢
    omega

theorem solver_rejected_excluded {σ : Type} [DecidableEq σ] (cfg : Config σ)
    (goal : σ → Bool) (ord : search_order) (n : Nat) (s : σ)
    (hinv : cfg.invariantFunction s = false) (hne : s ≠ cfg.initialState) :
    s ∉ (solverStepN cfg goal ord n).passed ∧
    ∀ l ∈ (solverStepN cfg goal ord n).result, s ∉ l := by
  have hQ : QClosed cfg
      (fun x => x = cfg.initialState ∨ cfg.invariantFunction x = true) :=
    ⟨Or.inl rfl, fun _ _ _ _ hi => Or.inr hi⟩
  obtain ⟨_, _, hpass, _, _, hres⟩ := solverStepN_QInv goal ord hQ n
  constructor
  · intro hs
    rcases hpass s hs with h | h
    · exact hne h
    · exact bool_absurd h hinv
  · intro l hl hs
    rcases hres l hl s hs with h | h
    · exact hne h
    · exact bool_absurd h hinv

theorem cost_rejected_excluded {σ κ : Type} [DecidableEq σ] [DecidableEq κ]
    (cfg : CostConfig σ κ) (goal : σ → Bool) (pi : Nat → Nat) (n : Nat)
    (s : σ)
    (hinv : cfg.invariantFunction s = false) (hne : s ≠ cfg.initialState) :
    s ∉ (costStepN cfg goal pi n).passed ∧
    ∀ l ∈ (costStepN cfg goal pi n).result, s ∉ l := by
  have hQ : QClosedC cfg
      (fun x => x = cfg.initialState ∨ cfg.invariantFunction x = true) :=
    ⟨Or.inl rfl, fun _ _ _ _ hi => Or.inr hi⟩
  obtain ⟨_, _, hpass, _, _, hres⟩ := costStepN_QInv goal pi hQ n
  constructor
  · intro hs
    rcases hpass s hs with h | h
    · exact hne h
    · exact bool_absurd h hinv
  · intro l hl hs
    rcases hres l hl s hs with h | h
    · exact hne h
    · exact bool_absurd h hinv

/-! Claim theorems. -/

/-- C1 counterexample: after one iteration of the cost solver on
`cfgCostDistinct`, the frontier simultaneously holds entries of cost 1
and cost 2, cost 1 being strictly smaller under the caller-supplied
order `cnLt`; yet the next pop takes the cost-2 entry.
`std::priority_queue` is a max-heap over the supplied `operator<`, so
the claim that the node with the numerically smallest cost under the
supplied strict weak ordering is popped next is false. -/
theorem C1_smallest_cost_pop_cx :
    (costStepN cfgCostDistinct goalTwoGoals piId 1).waiting.map
      (fun e => e.1) = [{ v := 1 }, { v := 2 }] ∧
    (costStepN cfgCostDistinct goalTwoGoals piId 2).popped.map
      (fun e => e.1) = [{ v := 0 }, { v := 2 }] ∧
    cfgCostDistinct.lt { v := 1 } { v := 2 } = true := by
  decide

/-- C1 (amended): whenever the frontier is non-empty, the entry popped
next by the cost solver is one that is MAXIMAL with respect to the
caller-supplied strict weak ordering on CostT — no frontier entry's cost
is above it under the supplied `operator<`.  (Clients such as family.cpp
invert their `operator<` so that this max-heap behaviour realises
numerically-smallest-cost-first exploration.) -/
theorem C1_pop_is_max_of_supplied_order :
    ∀ (σ κ : Type) [DecidableEq σ] [DecidableEq κ] (cfg : CostConfig σ κ)
      (pi : Nat → Nat) (waiting : List (κ × trace_state σ × Nat))
      (top : κ × trace_state σ × Nat),
      IsSWOb cfg.lt → costPop cfg pi waiting = some top →
      ∀ x ∈ waiting, cfg.lt top.1 x.1 = false := by
  intro σ κ _ _ cfg pi waiting top hswo hpop x hx
  have h := costPop_maximal hswo hpop x hx
  cases hl : cfg.lt top.1 x.1 with
  | false => rfl
  | true =>
    unfold pairLt at h
    rw [hl] at h
    exact absurd h (by simp)

/-- C1 witness: on the concrete two-entry frontier of `cfgCostDistinct`
the popped entry has cost 2 and no entry (in particular the cost-1 one)
is above it under `cnLt`. -/
theorem C1_pop_is_max_witness :
    cfgCostDistinct.lt { v := 2 } { v := 1 } = false :=
  C1_pop_is_max_of_supplied_order SS CN cfgCostDistinct piId
    [({ v := 1 }, .child (.root SS.s0) SS.s1, 1),
     ({ v := 2 }, .child (.root SS.s0) SS.s2, 2)]
    ({ v := 2 }, .child (.root SS.s0) SS.s2, 2)
    cnLt_swo (by decide)
    ({ v := 1 }, .child (.root SS.s0) SS.s1, 1) (by decide)

/-- C2: evaluation at the failing input.  On `cfgTwoGoals` (s0 with two
goal successors s1 and s2, invariant always true, breadth-first) the run
terminates after three pops with the result
`[[s0,s1], [s0,s1,s0,s2,s0,s1]]`.  The second returned "path" is not the
path `[s0,s2]` of its goal pop: `traces` and `containedSolution` are
function-scope variables that are never cleared between goal
discoveries, so the second entry is the stale first solution with the
new walk prepended-into/appended-onto it.  s1 has no outgoing
transitions (third conjunct), so the consecutive pair (s1, s0) inside
the second entry is not produced by any generated transition: applying
the recorded transitions from the initial state cannot reproduce it. -/
theorem C2_returned_path_roundtrip_failure :
    (solverStepN cfgTwoGoals goalTwoGoals .breadth_first 3).result =
      [[SS.s0, SS.s1], [SS.s0, SS.s1, SS.s0, SS.s2, SS.s0, SS.s1]] ∧
    (solverStepN cfgTwoGoals goalTwoGoals .breadth_first 3).waiting = [] ∧
    (cfgTwoGoals.transitionFunction SS.s1).map (fun t => t SS.s1) = [] := by
  decide

/-- C3 counterexample: the root node wrapping the initial state is pushed
onto the frontier although the invariant rejects the initial state —
the seed push performs no invariant check, so the claim's "including the
root node" part is false. -/
theorem C3_root_pushed_unchecked_cx :
    (solverStepN cfgRejectAll goalNever .breadth_first 0).waiting =
      [trace_state.root SS.s0] ∧
    cfgRejectAll.invariantFunction SS.s0 = false := by
  decide

/-- C3 (amended): every node pushed onto the frontier EXCEPT the seeded
root holds a state that passed the invariant predicate; the root node
wrapping the initial state is pushed unconditionally, in both the
unordered solver and the cost solver. -/
theorem C3_frontier_invariant_amended :
    (∀ (σ : Type) [DecidableEq σ] (cfg : Config σ) (goal : σ → Bool)
       (ord : search_order) (n : Nat),
       ∀ x ∈ (solverStepN cfg goal ord n).waiting,
         x = trace_state.root cfg.initialState ∨
         cfg.invariantFunction x.self = true) ∧
    (∀ (σ κ : Type) [DecidableEq σ] [DecidableEq κ] (cfg : CostConfig σ κ)
       (goal : σ → Bool) (pi : Nat → Nat) (n : Nat),
       ∀ x ∈ (costStepN cfg goal pi n).waiting,
         x.2.1 = trace_state.root cfg.initialState ∨
         cfg.invariantFunction x.2.1.self = true) :=
  ⟨fun _ _ cfg goal ord n => solverStepN_waiting_inv cfg goal ord n,
   fun _ _ _ _ cfg goal pi n => costStepN_waiting_inv cfg goal pi n⟩

/-- C3 witness: the non-root frontier node after one iteration of
`cfgRejectInit` holds the invariant-passing state s1. -/
theorem C3_frontier_invariant_witness :
    trace_state.child (trace_state.root SS.s0) SS.s1 =
      trace_state.root cfgRejectInit.initialState ∨
    cfgRejectInit.invariantFunction
      (trace_state.child (trace_state.root SS.s0) SS.s1).self = true :=
  C3_frontier_invariant_amended.1 SS cfgRejectInit goalRejectInit
    .breadth_first 1 (trace_state.child (trace_state.root SS.s0) SS.s1)
    (by decide)

/-- C4 counterexample: the invariant of `cfgRejectAll` rejects every
state, in particular the initial one, yet with a goal accepting the
initial state `check` returns the non-empty result `[[s0]]`: the
invariant is never applied to the initial state, which is seeded,
goal-tested and expanded regardless. -/
theorem C4_reject_init_nonempty_cx :
    state_space_check cfgRejectAll goalAlways .breadth_first 1 =
      some [[SS.s0]] ∧
    cfgRejectAll.invariantFunction cfgRejectAll.initialState = false := by
  decide

/-- C4 (amended): if the goal predicate rejects the initial state and the
invariant predicate rejects every candidate successor of the initial
state, then `check` terminates with the empty result set (and no error),
in both the cost-free and the cost-enabled mode.  (The invariant's
verdict on the initial state itself plays no role: it is never
consulted.) -/
theorem C4_empty_result_amended :
    (∀ (σ : Type) [DecidableEq σ] (cfg : Config σ) (goal : σ → Bool)
       (ord : search_order) (fuel : Nat),
       goal cfg.initialState = false →
       (∀ t ∈ cfg.transitionFunction cfg.initialState,
         cfg.invariantFunction (t cfg.initialState) = false) →
       1 ≤ fuel →
       state_space_check cfg goal ord fuel = some []) ∧
    (∀ (σ κ : Type) [DecidableEq σ] [DecidableEq κ] (cfg : CostConfig σ κ)
       (goal : σ → Bool) (pi : Nat → Nat) (fuel : Nat),
       goal cfg.initialState = false →
       (∀ t ∈ cfg.transitionFunction cfg.initialState,
         cfg.invariantFunction (t cfg.initialState) = false) →
       1 ≤ fuel →
       state_space_checkCost cfg goal pi fuel = some []) := by
  constructor
  · intro σ _ cfg goal ord fuel hg hsucc hfuel
    have h1 := solverStepN_one_rejected cfg goal ord hg hsucc
    have hstable := solverStepN_stable cfg goal ord 1 (by rw [h1]) fuel hfuel
    unfold state_space_check
    rw [hstable, h1]
    rfl
  · intro σ κ _ _ cfg goal pi fuel hg hsucc hfuel
    have h1 := costStepN_one_rejected cfg goal pi hg hsucc
    have hstable := costStepN_stable cfg goal pi 1 (by rw [h1]) fuel hfuel
    unfold state_space_checkCost
    rw [hstable, h1]
    rfl

/-- C4 witness: concrete all-rejecting configurations with a never-true
goal give `some []` in both modes. -/
theorem C4_empty_result_witness :
    state_space_check cfgRejectAll goalNever .breadth_first 1 = some [] ∧
    state_space_checkCost cfgCostRejectAll goalNever piId 1 = some [] :=
  ⟨C4_empty_result_amended.1 SS cfgRejectAll goalNever .breadth_first 1
     (by decide) (fun t _ => rfl) (by decide),
   C4_empty_result_amended.2 SS CN cfgCostRejectAll goalNever piId 1
     (by decide) (fun t _ => rfl) (by decide)⟩

/-- C5: across a whole run, each distinct state is expanded (appended to
`passed`, which happens exactly when the transition generator is invoked
on it) at most once, in both solvers — the visited check before
expansion guarantees `passed` never repeats a state. -/
theorem C5_expand_at_most_once :
    (∀ (σ : Type) [DecidableEq σ] (cfg : Config σ) (goal : σ → Bool)
       (ord : search_order) (n : Nat) (s : σ),
       (solverStepN cfg goal ord n).passed.count s ≤ 1) ∧
    (∀ (σ κ : Type) [DecidableEq σ] [DecidableEq κ] (cfg : CostConfig σ κ)
       (goal : σ → Bool) (pi : Nat → Nat) (n : Nat) (s : σ),
       (costStepN cfg goal pi n).passed.count s ≤ 1) :=
  ⟨fun _ _ cfg goal ord n s =>
     List.nodup_iff_count_le_one.mp (solverStepN_passed_nodup cfg goal ord n) s,
   fun _ _ _ _ cfg goal pi n s =>
     List.nodup_iff_count_le_one.mp (costStepN_passed_nodup cfg goal pi n) s⟩

/-- C6: evaluation at the failing input.  On the chain s0→s1→s2→s3 with
goals {s2, s3} (`cfgChain`), the breadth-first run pops nodes whose
recorded traces are `[s0]`, `[s0,s1]`, `[s0,s1,s2]`, `[s0,s3]`: after
the goal s2 is discovered, the reconstruction walk has moved the
`traceState` variable to the root, so s2's successor s3 is pushed with
the ROOT as parent.  The goal discoveries therefore have 2 then 1
transitions — not non-decreasing — and the first (only) path found to
s3 records 1 transition although the only transition from s0 goes to s1
(last conjunct), i.e. no 1-transition invariant-respecting path to s3
exists: the true minimum is 3.  Both halves of the claim fail. -/
theorem C6_bfs_shortest_failure :
    (solverStepN cfgChain goalChain .breadth_first 4).popped.map
      trace_state.toList =
      [[SS.s0], [SS.s0, SS.s1], [SS.s0, SS.s1, SS.s2], [SS.s0, SS.s3]] ∧
    (solverStepN cfgChain goalChain .breadth_first 4).result =
      [[SS.s0, SS.s1, SS.s2],
       [SS.s0, SS.s1, SS.s2, SS.s0, SS.s3, SS.s0, SS.s1, SS.s2]] ∧
    (solverStepN cfgChain goalChain .breadth_first 4).waiting = [] ∧
    (cfgChain.transitionFunction SS.s0).map (fun t => t SS.s0) = [SS.s1] := by
  decide

/-- C7: the driver never stops at a goal: while the frontier is
non-empty each iteration pops exactly one node; each goal-satisfying pop
appends exactly one entry to the result (so the result has one entry per
goal pop, in pop order); and every popped node's state is expanded
unless already visited (its state always ends up in `passed`) — in both
solvers. -/
theorem C7_exhaustive_enumeration :
    (∀ (σ : Type) [DecidableEq σ] (cfg : Config σ) (goal : σ → Bool)
       (ord : search_order) (n : Nat),
       (solverStepN cfg goal ord n).result.length =
         ((solverStepN cfg goal ord n).popped.filter
           (fun p => goal p.self)).length) ∧
    (∀ (σ : Type) [DecidableEq σ] (cfg : Config σ) (goal : σ → Bool)
       (ord : search_order) (n : Nat),
       ∀ p ∈ (solverStepN cfg goal ord n).popped,
         p.self ∈ (solverStepN cfg goal ord n).passed) ∧
    (∀ (σ : Type) [DecidableEq σ] (cfg : Config σ) (goal : σ → Bool)
       (ord : search_order) (st : SolverState σ), st.waiting ≠ [] →
       (solverStep cfg goal ord st).popped.length = st.popped.length + 1) ∧
    (∀ (σ κ : Type) [DecidableEq σ] [DecidableEq κ] (cfg : CostConfig σ κ)
       (goal : σ → Bool) (pi : Nat → Nat) (n : Nat),
       (costStepN cfg goal pi n).result.length =
         ((costStepN cfg goal pi n).popped.filter
           (fun p => goal p.2.self)).length) ∧
    (∀ (σ κ : Type) [DecidableEq σ] [DecidableEq κ] (cfg : CostConfig σ κ)
       (goal : σ → Bool) (pi : Nat → Nat) (n : Nat),
       ∀ p ∈ (costStepN cfg goal pi n).popped,
         p.2.self ∈ (costStepN cfg goal pi n).passed) ∧
    (∀ (σ κ : Type) [DecidableEq σ] [DecidableEq κ] (cfg : CostConfig σ κ)
       (goal : σ → Bool) (pi : Nat → Nat) (st : CostSolverState σ κ),
       st.waiting ≠ [] →
       (costStep cfg goal pi st).popped.length = st.popped.length + 1) :=
  ⟨fun _ _ cfg goal ord n => solverStepN_result_count cfg goal ord n,
   fun _ _ cfg goal ord n => solverStepN_popped_passed cfg goal ord n,
   fun _ _ cfg goal ord st h => solverStep_pops cfg goal ord st h,
   fun _ _ _ _ cfg goal pi n => costStepN_result_count cfg goal pi n,
   fun _ _ _ _ cfg goal pi n => costStepN_popped_passed cfg goal pi n,
   fun _ _ _ _ cfg goal pi st h => costStep_pops cfg goal pi st h⟩

/-- C7 witness: concrete instances of the parts with hypotheses — the
popped root's state is in `passed` after one iteration, and one more
node is popped from the non-empty initial frontier, in both solvers. -/
theorem C7_exhaustive_enumeration_witness :
    (trace_state.root SS.s0).self ∈
      (solverStepN cfgTwoGoals goalTwoGoals .breadth_first 1).passed ∧
    (solverStep cfgTwoGoals goalTwoGoals .breadth_first
      (solverInit cfgTwoGoals)).popped.length =
      (solverInit cfgTwoGoals).popped.length + 1 ∧
    (({ v := 0 } : CN), trace_state.root SS.s0).2.self ∈
      (costStepN cfgCostTie goalTwoGoals piId 1).passed ∧
    (costStep cfgCostTie goalTwoGoals piId
      (costInit cfgCostTie)).popped.length =
      (costInit cfgCostTie).popped.length + 1 :=
  ⟨C7_exhaustive_enumeration.2.1 SS cfgTwoGoals goalTwoGoals .breadth_first 1
     (trace_state.root SS.s0) (by decide),
   C7_exhaustive_enumeration.2.2.1 SS cfgTwoGoals goalTwoGoals .breadth_first
     (solverInit cfgTwoGoals) (by decide),
   C7_exhaustive_enumeration.2.2.2.2.1 SS CN cfgCostTie goalTwoGoals piId 1
     (({ v := 0 } : CN), trace_state.root SS.s0) (by decide),
   C7_exhaustive_enumeration.2.2.2.2.2 SS CN cfgCostTie goalTwoGoals piId
     (costInit cfgCostTie) (by decide)⟩

/-- C8 counterexample: in `cfgRejectInit` the invariant rejects exactly
the initial state s0; s0 is generated as a candidate successor of s1
(fourth conjunct) and rejected, yet s0 appears in the returned path
`[s0]` (it is the root, goal-tested without any invariant check) and s0
IS expanded (it is in `passed`).  The claim fails for rejected
candidates that equal the initial state. -/
theorem C8_rejected_candidate_cx :
    (solverStepN cfgRejectInit goalRejectInit .breadth_first 2).result =
      [[SS.s0]] ∧
    (solverStepN cfgRejectInit goalRejectInit .breadth_first 2).passed =
      [SS.s0, SS.s1] ∧
    cfgRejectInit.invariantFunction SS.s0 = false ∧
    (cfgRejectInit.transitionFunction SS.s1).map (fun t => t SS.s1) =
      [SS.s0] := by
  decide

/-- C8 (amended): a state rejected by the invariant predicate never
appears in any returned path and is never expanded (never enters
`passed`, the exact log of transition-generator invocations), UNLESS it
equals the initial state — the initial state is seeded, goal-tested and
expanded without any invariant check.  Holds in both solvers. -/
theorem C8_rejected_candidate_excluded :
    (∀ (σ : Type) [DecidableEq σ] (cfg : Config σ) (goal : σ → Bool)
       (ord : search_order) (n : Nat) (s : σ),
       cfg.invariantFunction s = false → s ≠ cfg.initialState →
       s ∉ (solverStepN cfg goal ord n).passed ∧
       ∀ l ∈ (solverStepN cfg goal ord n).result, s ∉ l) ∧
    (∀ (σ κ : Type) [DecidableEq σ] [DecidableEq κ] (cfg : CostConfig σ κ)
       (goal : σ → Bool) (pi : Nat → Nat) (n : Nat) (s : σ),
       cfg.invariantFunction s = false → s ≠ cfg.initialState →
       s ∉ (costStepN cfg goal pi n).passed ∧
       ∀ l ∈ (costStepN cfg goal pi n).result, s ∉ l) :=
  ⟨fun _ _ cfg goal ord n s hinv hne =>
     solver_rejected_excluded cfg goal ord n s hinv hne,
   fun _ _ _ _ cfg goal pi n s hinv hne =>
     cost_rejected_excluded cfg goal pi n s hinv hne⟩

/-- C8 witness: in the all-rejecting configurations, the rejected
non-initial state s1 is neither expanded nor part of any returned path,
in both solvers. -/
theorem C8_rejected_candidate_excluded_witness :
    (SS.s1 ∉ (solverStepN cfgRejectAll goalAlways .breadth_first 1).passed ∧
     ∀ l ∈ (solverStepN cfgRejectAll goalAlways .breadth_first 1).result,
       SS.s1 ∉ l) ∧
    (SS.s1 ∉ (costStepN cfgCostRejectAll goalNever piId 1).passed ∧
     ∀ l ∈ (costStepN cfgCostRejectAll goalNever piId 1).result,
       SS.s1 ∉ l) :=
  ⟨C8_rejected_candidate_excluded.1 SS cfgRejectAll goalAlways .breadth_first
     1 SS.s1 (by decide) (by decide),
   C8_rejected_candidate_excluded.2 SS CN cfgCostRejectAll goalNever piId
     1 SS.s1 (by decide) (by decide)⟩

/-- C9: in the family.cpp model (boat capacity 2, initial state all on
shore1, invariant `river_crossing_valid`), no state in any returned path
of the cost-driven search — whatever the cost-combination lambda, the
address map or the number of iterations — has more than two passengers
aboard: every recorded state is either the initial state (0 passengers)
or one that passed the invariant, whose very first check rejects
passenger counts above the (transition-invariant) capacity of 2. -/
theorem C9_boat_capacity_bound :
    ∀ (costFn : state_t → cost_t → cost_t) (pi : Nat → Nat) (n : Nat),
      ((costStepN (famCfg costFn) famGoal pi n).result).all
        (fun l => l.all (fun s => decide (s.boat.passengers ≤ 2))) = true := by
  intro costFn pi n
  have hQ : QClosedC (famCfg costFn)
      (fun s => s.boat.capacity = 2 ∧ s.boat.passengers ≤ 2) := by
    constructor
    · exact ⟨rfl, by simp [famCfg, famInit]⟩
    · intro s t hs ht hi
      have hcap : (t s).boat.capacity = s.boat.capacity :=
        famTransitions_capacity s t ht
      refine ⟨by rw [hcap]; exact hs.1, ?_⟩
      calc (t s).boat.passengers ≤ (t s).boat.capacity :=
            river_valid_passengers hi
        _ = 2 := by rw [hcap, hs.1]
  obtain ⟨_, _, _, _, _, hres⟩ := costStepN_QInv famGoal pi hQ n
  rw [List.all_eq_true]
  intro l hl
  rw [List.all_eq_true]
  intro s hs
  exact decide_eq_true (hres l hl s hs).2

/-- C10 counterexample: the heap comparator breaks cost ties by
comparing shared_ptr ADDRESSES; two runs of the cost solver on the same
configuration (`cfgCostTie`, both successors costed equally) but with
address assignments that order the two allocations differently return
the two discovered paths in different orders.  Identical result
sequences across runs are therefore not guaranteed. -/
theorem C10_address_tiebreak_cx :
    (costStepN cfgCostTie goalTwoGoals piId 3).result ≠
    (costStepN cfgCostTie goalTwoGoals piSwap 3).result := by
  decide

/-- C10 (amended): the unordered solver takes no address input at all,
and the cost solver is deterministic once the addresses of the allocated
nodes are fixed up to order: two runs whose address maps induce the same
comparison order on allocation indices produce identical result
sequences.  Only the address-based tie-break (exercised when two
frontier entries have `<`-incomparable costs) can differ between runs. -/
theorem C10_deterministic_same_address_order :
    ∀ (σ κ : Type) [DecidableEq σ] [DecidableEq κ] (cfg : CostConfig σ κ)
      (goal : σ → Bool) (pi1 pi2 : Nat → Nat),
      (∀ i j, pi1 i < pi1 j ↔ pi2 i < pi2 j) →
      ∀ n, (costStepN cfg goal pi1 n).result =
        (costStepN cfg goal pi2 n).result := by
  intro σ κ _ _ cfg goal pi1 pi2 hord n
  rw [costStepN_pi_congr cfg goal pi1 pi2 hord n]

/-- C10 witness: shifting every address by 5 preserves the order, so the
tie-prone run of `cfgCostTie` returns the same results as with identity
addresses. -/
theorem C10_deterministic_witness :
    (costStepN cfgCostTie goalTwoGoals piId 3).result =
    (costStepN cfgCostTie goalTwoGoals piShift 3).result :=
  C10_deterministic_same_address_order SS CN cfgCostTie goalTwoGoals
    piId piShift (fun i j => by simp [piId, piShift]) 3
